import Mathlib

/-!
Shallow embedding of `optimizer.py`, a 2-D rectangular bin-packing engine
(guillotine / MAXRECTS-style free-rectangle heuristic with strip bias,
first-fit packer, global compactor, heavy refiner, multi-start driver).

Python machine integers are modelled as `Nat` (all quantities in the source
are non-negative; every subtraction in the source is either guarded by the
corresponding comparison or immediately filtered by a positivity check, so
truncated subtraction agrees with Python semantics at every use site).

The global pseudo-random source (`random.shuffle`) is modelled as an
explicit parameter `σ : Nat → List Piece → List Piece` together with a call
counter: the n-th call to `random.shuffle` replaces its argument list `l`
by `σ n l`.  The only assumption ever placed on `σ` is `IsShuffle σ`:
each `σ n` permutes its argument, which is exactly what `random.shuffle`
guarantees.  `ValueError` raised by `_pack_once` is modelled with `Except`.
-/

set_option maxHeartbeats 1000000

namespace Cut

/-- `Piece` from the source.  Python names pieces `"P1"`, `"P2"`, … at
flattening time; the name is never inspected by the algorithm, so it is
modelled by the counter `Nat` that Python interpolates into the string. -/
structure Piece where
  w : Nat
  h : Nat
  name : Nat
deriving DecidableEq, Repr

/-- `PlacedPiece` from the source. -/
structure PlacedPiece where
  piece : Piece
  x : Nat
  y : Nat
  rotated : Bool
deriving DecidableEq, Repr

/-- `PlacedPiece.width`. -/
def PlacedPiece.width (p : PlacedPiece) : Nat :=
  if p.rotated then p.piece.h else p.piece.w

/-- `PlacedPiece.height`. -/
def PlacedPiece.height (p : PlacedPiece) : Nat :=
  if p.rotated then p.piece.w else p.piece.h

/-- `FreeRect` from the source. -/
structure FreeRect where
  x : Nat
  y : Nat
  w : Nat
  h : Nat
deriving DecidableEq, Repr

/-- `SheetLayout` attributes from the source. -/
structure SheetLayout where
  sheet_w : Nat
  sheet_h : Nat
  kerf : Nat
  strategy : String
  allow_rotation : Bool
  placed : List PlacedPiece
  free_rects : List FreeRect
deriving DecidableEq, Repr

/-- `SheetLayout.__init__`: a fresh sheet has no placements and one
free rectangle covering the whole sheet. -/
def SheetLayout.init (W H K : Nat) (strat : String) (rot : Bool) : SheetLayout :=
  { sheet_w := W, sheet_h := H, kerf := K, strategy := strat,
    allow_rotation := rot, placed := [], free_rects := [⟨0, 0, W, H⟩] }

/-- `SheetLayout.get_used_area`. -/
def SheetLayout.get_used_area (sh : SheetLayout) : Nat :=
  (sh.placed.map (fun p => p.width * p.height)).sum

/-- `SheetLayout._intersects` (static). -/
def SheetLayout.intersects (a b : FreeRect) : Bool :=
  decide (¬ (a.x + a.w ≤ b.x ∨ b.x + b.w ≤ a.x ∨ a.y + a.h ≤ b.y ∨ b.y + b.h ≤ a.y))

/-- `SheetLayout._contains` (static, non-strict containment `b ⊆ a`). -/
def SheetLayout.containsR (a b : FreeRect) : Bool :=
  decide (b.x ≥ a.x ∧ b.y ≥ a.y ∧ b.x + b.w ≤ a.x + a.w ∧ b.y + b.h ≤ a.y + a.h)

/-! ### Candidate enumeration and lexicographic choice of `try_place_piece`

Python compares candidate tuples of (equal-length) int/bool tuples with the
built-in lexicographic order, keeping the first strict minimum in
enumeration order.  The tuple is modelled as a `List Nat` (`True`/`False`
compare as `1`/`0` in Python), the running minimum as a left fold. -/

/-- Strict lexicographic order on equal-length `Nat` lists, exactly
Python's tuple `<`. -/
def keyLt : List Nat → List Nat → Bool
  | [], [] => false
  | [], _ :: _ => true
  | _ :: _, [] => false
  | a :: as, b :: bs => if a < b then true else if b < a then false else keyLt as bs

/-- A placement candidate: the Python comparison tuple plus the fields the
source destructures out of it for `_place_and_split`. -/
structure Cand where
  key : List Nat
  i : Nat
  rot : Bool
  x : Nat
  y : Nat
  pw : Nat
  ph : Nat
deriving DecidableEq, Repr

/-- Python's running-minimum pattern
`if best is None or cand < best: best = cand` over a candidate list. -/
def pickBest (l : List Cand) : Option Cand :=
  l.foldl
    (fun best c =>
      match best with
      | none => some c
      | some b => if keyLt c.key b.key then some c else some b)
    none

/-- `orientations = [False, True] if allow_rotation else [False]`. -/
def orientations (allow_rotation : Bool) : List Bool :=
  if allow_rotation then [false, true] else [false]

/-- `pw = piece.h if rot else piece.w`, `ph = piece.w if rot else piece.h`. -/
def orientedDims (p : Piece) (rot : Bool) : Nat × Nat :=
  if rot then (p.h, p.w) else (p.w, p.h)

/-- Python booleans inside a comparison tuple behave as `0` / `1`. -/
def rotN (b : Bool) : Nat := if b then 1 else 0

/-- The exact-fit candidates of pass 1, in Python's enumeration order
(free-rect index outer, orientation inner), with the source's tuple
`(fr.y, fr.x, i, rot, fr.x, fr.y, pw, ph)`. -/
def exact_cands (sh : SheetLayout) (p : Piece) : List Cand :=
  (sh.free_rects.enum.map (fun ifr =>
    (orientations sh.allow_rotation).filterMap (fun rot =>
      let i := ifr.1
      let fr := ifr.2
      let pw := (orientedDims p rot).1
      let ph := (orientedDims p rot).2
      if pw ≤ fr.w ∧ ph ≤ fr.h ∧ (pw = fr.w ∨ ph = fr.h) then
        some { key := [fr.y, fr.x, i, rotN rot, fr.x, fr.y, pw, ph],
               i := i, rot := rot, x := fr.x, y := fr.y, pw := pw, ph := ph }
      else none))).flatten

/-- `base_score` from the scored pass: the strategy-dependent primary key.
Any strategy tag other than `"BSSF"`, `"BAF"`, `"BLSF"` falls through to
the `BSSF` pair. -/
def base_score (st : String) (fr_w fr_h pw ph : Nat) : Nat × Nat :=
  let leftover_h := fr_h - ph
  let leftover_w := fr_w - pw
  let short_side := min leftover_h leftover_w
  let long_side := max leftover_h leftover_w
  let area_left := leftover_h * leftover_w
  if st = "BSSF" then (short_side, area_left)
  else if st = "BAF" then (area_left, short_side)
  else if st = "BLSF" then (long_side, short_side)
  else (short_side, area_left)

/-- `strip_bias` from the scored pass (its `ph` parameter is unused in the
source body as well). -/
def strip_bias (placed : List PlacedPiece) (fr : FreeRect) (pw ph : Nat) : Nat :=
  let penalty := 10000
  let penalty := if fr.x = 0 then penalty - 200 else penalty
  let col_hits := placed.filter
    (fun p => decide (p.x = fr.x ∧ p.width = pw ∧ p.y + p.height ≤ fr.y + 1))
  let penalty := if col_hits ≠ [] then penalty - 5000 else penalty
  penalty - min fr.y 200

/-- The scored candidates of pass 2, with the source's tuple
`(primary[0], primary[1], fr.y, fr.x, sb, i, rot, fr.x, fr.y, pw, ph)`. -/
def scored_cands (sh : SheetLayout) (p : Piece) : List Cand :=
  (sh.free_rects.enum.map (fun ifr =>
    (orientations sh.allow_rotation).filterMap (fun rot =>
      let i := ifr.1
      let fr := ifr.2
      let pw := (orientedDims p rot).1
      let ph := (orientedDims p rot).2
      if pw ≤ fr.w ∧ ph ≤ fr.h then
        let primary := base_score sh.strategy fr.w fr.h pw ph
        let sb := strip_bias sh.placed fr pw ph
        some { key := [primary.1, primary.2, fr.y, fr.x, sb, i, rotN rot, fr.x, fr.y, pw, ph],
               i := i, rot := rot, x := fr.x, y := fr.y, pw := pw, ph := ph }
      else none))).flatten

/-! ### Split, prune, merge -/

/-- `SheetLayout._prune_free_rects_with`: MAXRECTS-style pruning of every
free rect against the (un-kerfed) used rectangle, followed by the
positivity filter of the source's last line. -/
def prune_free_rects_with (free : List FreeRect) (used : FreeRect) : List FreeRect :=
  let out := (free.map (fun fr =>
    if SheetLayout.intersects fr used = false then [fr]
    else
      (if used.y > fr.y then
        [⟨fr.x, fr.y, fr.w, used.y - fr.y⟩] else []) ++
      (if used.y + used.h < fr.y + fr.h then
        [⟨fr.x, used.y + used.h, fr.w, (fr.y + fr.h) - (used.y + used.h)⟩] else []) ++
      (if used.x > fr.x then
        [⟨fr.x, max fr.y used.y, used.x - fr.x,
          min (fr.y + fr.h) (used.y + used.h) - max fr.y used.y⟩] else []) ++
      (if used.x + used.w < fr.x + fr.w then
        [⟨used.x + used.w, max fr.y used.y, (fr.x + fr.w) - (used.x + used.w),
          min (fr.y + fr.h) (used.y + used.h) - max fr.y used.y⟩] else []))).flatten
  out.filter (fun r => decide (0 < r.w ∧ 0 < r.h))

/-- One merge test of `_merge_free_rects`: two rects sharing a full
vertical or horizontal edge merge into their bounding box. -/
def mergeTwo (a b : FreeRect) : Option FreeRect :=
  if a.y = b.y ∧ a.h = b.h ∧ (a.x + a.w = b.x ∨ b.x + b.w = a.x) then
    some ⟨min a.x b.x, a.y, a.w + b.w, a.h⟩
  else if a.x = b.x ∧ a.w = b.w ∧ (a.y + a.h = b.y ∨ b.y + b.h = a.y) then
    some ⟨a.x, min a.y b.y, a.w, a.h + b.h⟩
  else none

/-- Find the first partner (in list order) mergeable with `a`; return the
merged rect and the list with that partner removed — the functional form of
the source's `used[j] = True` bookkeeping. -/
def findPartner (a : FreeRect) : List FreeRect → Option (FreeRect × List FreeRect)
  | [] => none
  | b :: rest =>
    match mergeTwo a b with
    | some m => some (m, rest)
    | none =>
      match findPartner a rest with
      | some (m, rest') => some (m, b :: rest')
      | none => none

theorem findPartner_length {a : FreeRect} {l : List FreeRect} {m : FreeRect}
    {rest : List FreeRect} (h : findPartner a l = some (m, rest)) :
    rest.length + 1 = l.length := by
  induction l generalizing m rest with
  | nil => simp [findPartner] at h
  | cons b bs ih =>
    simp only [findPartner] at h
    cases hm : mergeTwo a b with
    | some m' => rw [hm] at h; cases h; rfl
    | none =>
      rw [hm] at h
      cases hf : findPartner a bs with
      | none => rw [hf] at h; cases h
      | some p =>
        rw [hf] at h
        cases p with
        | mk m'' rest'' =>
          cases h
          simp [← ih hf]

/-- One pass of the source's inner merge loop: scan left to right, merge
each rect with its first unused partner, and report whether any merge
happened.  The recursion is bounded by the list length, made explicit as a
structural `fuel` argument so the definition evaluates in the kernel; a
merge removes one partner from the remaining list, so `l.length` fuel is
always enough and `mergePassF_irrel` shows the fuel-out branch is never
taken at the fuel supplied by `mergePass`. -/
def mergePassF : Nat → List FreeRect → List FreeRect × Bool
  | _, [] => ([], false)
  | 0, a :: rest => (a :: rest, false)
  | fuel + 1, a :: rest =>
    match findPartner a rest with
    | some (m, rest') => (m :: (mergePassF fuel rest').1, true)
    | none =>
      let r := mergePassF fuel rest
      (a :: r.1, r.2)

def mergePass (l : List FreeRect) : List FreeRect × Bool :=
  mergePassF l.length l

/-- Any fuel of at least the list length gives the same pass result. -/
theorem mergePassF_irrel :
    ∀ (f1 f2 : Nat) (l : List FreeRect), l.length ≤ f1 → l.length ≤ f2 →
      mergePassF f1 l = mergePassF f2 l := by
  intro f1
  induction f1 with
  | zero =>
    intro f2 l h1 _
    rcases l with _ | ⟨a, rest⟩
    · cases f2 <;> rfl
    · simp only [List.length_cons] at h1
      omega
  | succ f1 ih =>
    intro f2 l h1 h2
    rcases l with _ | ⟨a, rest⟩
    · cases f2 <;> rfl
    · rcases f2 with _ | f2
      · simp at h2
      · simp only [List.length_cons, Nat.succ_le_succ_iff] at h1 h2
        simp only [mergePassF]
        cases hf : findPartner a rest with
        | some pr =>
          rcases pr with ⟨m, rest'⟩
          have hlen := findPartner_length hf
          change (m :: (mergePassF f1 rest').1, true) =
            (m :: (mergePassF f2 rest').1, true)
          rw [ih f2 rest' (by omega) (by omega)]
        | none =>
          change (a :: (mergePassF f1 rest).1, (mergePassF f1 rest).2) =
            (a :: (mergePassF f2 rest).1, (mergePassF f2 rest).2)
          rw [ih f2 rest h1 h2]

theorem mergePass_nil : mergePass [] = ([], false) := rfl

theorem mergePass_cons_some {a m : FreeRect} {rest rest' : List FreeRect}
    (hf : findPartner a rest = some (m, rest')) :
    mergePass (a :: rest) = (m :: (mergePass rest').1, true) := by
  have hlen := findPartner_length hf
  show mergePassF (a :: rest).length (a :: rest) = _
  simp only [List.length_cons, mergePassF, hf]
  rw [mergePassF_irrel rest.length rest'.length rest' (by omega) (Nat.le_refl _)]
  rfl

theorem mergePass_cons_none {a : FreeRect} {rest : List FreeRect}
    (hf : findPartner a rest = none) :
    mergePass (a :: rest) = (a :: (mergePass rest).1, (mergePass rest).2) := by
  show mergePassF (a :: rest).length (a :: rest) = _
  simp only [List.length_cons, mergePassF, hf]
  rfl

theorem mergePass_length : ∀ (l : List FreeRect),
    (mergePass l).1.length ≤ l.length ∧
      ((mergePass l).2 = true → (mergePass l).1.length < l.length)
  | [] => by simp [mergePass_nil]
  | a :: rest => by
    cases hf : findPartner a rest with
    | some pr =>
      rcases pr with ⟨m, rest'⟩
      have hlen := findPartner_length hf
      have ih := mergePass_length rest'
      rw [mergePass_cons_some hf]
      refine ⟨?_, fun _ => ?_⟩ <;> simp only [List.length_cons] <;> omega
    | none =>
      have ih := mergePass_length rest
      rw [mergePass_cons_none hf]
      refine ⟨?_, fun hm => ?_⟩
      · simp only [List.length_cons]
        omega
      · have := ih.2 hm
        simp only [List.length_cons]
        omega
termination_by l => l.length
decreasing_by
  all_goals simp only [List.length_cons]
  all_goals omega

/-- The source's `while merged:` loop, iterating `mergePass` to a fixpoint.
Each merging pass strictly shortens the list, so `l.length + 1` iterations
of structural fuel always reach the fixpoint (`mergeLoopF_irrel`). -/
def mergeLoopF : Nat → List FreeRect → List FreeRect
  | 0, l => l
  | fuel + 1, l =>
    let r := mergePass l
    if r.2 = true then mergeLoopF fuel r.1 else r.1

def mergeLoop (l : List FreeRect) : List FreeRect :=
  mergeLoopF (l.length + 1) l

/-- Any fuel strictly above the list length gives the same fixpoint. -/
theorem mergeLoopF_irrel :
    ∀ (f1 f2 : Nat) (l : List FreeRect), l.length < f1 → l.length < f2 →
      mergeLoopF f1 l = mergeLoopF f2 l := by
  intro f1
  induction f1 with
  | zero => intro f2 l h1 _; omega
  | succ f1 ih =>
    intro f2 l h1 h2
    rcases f2 with _ | f2
    · omega
    · simp only [mergeLoopF]
      cases hm : (mergePass l).2 with
      | true =>
        have := (mergePass_length l).2 hm
        simp only [hm, if_true]
        exact ih f2 (mergePass l).1 (by omega) (by omega)
      | false => simp [hm]

/-- The containment filter at the head of `_merge_free_rects`: drop every
rect (non-strictly) contained in a rect at a *different* index. -/
def containment_filter (l : List FreeRect) : List FreeRect :=
  (l.enum.filter (fun ia =>
    !(l.enum.any (fun jb => decide (ia.1 ≠ jb.1) && SheetLayout.containsR jb.2 ia.2)))).map
    (fun ia => ia.2)

/-- `SheetLayout._merge_free_rects`. -/
def merge_free_rects (l : List FreeRect) : List FreeRect :=
  mergeLoop (containment_filter l)

/-- `SheetLayout._place_and_split`. -/
def SheetLayout.place_and_split (sh : SheetLayout) (fr_i : Nat) (p : Piece)
    (rot : Bool) (x y pw ph : Nat) : SheetLayout :=
  let placed' := sh.placed ++ [⟨p, x, y, rot⟩]
  let fr := sh.free_rects.getD fr_i ⟨0, 0, 0, 0⟩
  let rest := sh.free_rects.eraseIdx fr_i
  let kx := if x + pw < fr.x + fr.w then sh.kerf else 0
  let ky := if y + ph < fr.y + fr.h then sh.kerf else 0
  let rx := x + pw + kx
  let rw := (fr.x + fr.w) - rx
  let l1 := if 0 < rw then rest ++ [⟨rx, fr.y, rw, fr.h⟩] else rest
  let by_ := y + ph + ky
  let bh := (fr.y + fr.h) - by_
  let l2 := if 0 < bh then l1 ++ [⟨fr.x, by_, fr.w, bh⟩] else l1
  { sh with placed := placed',
            free_rects := merge_free_rects (prune_free_rects_with l2 ⟨x, y, pw, ph⟩) }

/-- `SheetLayout.try_place_piece`: exact-fit pass, then scored pass; on
failure the sheet is returned unchanged. -/
def SheetLayout.try_place_piece (sh : SheetLayout) (p : Piece) : Bool × SheetLayout :=
  match pickBest (exact_cands sh p) with
  | some c => (true, sh.place_and_split c.i p c.rot c.x c.y c.pw c.ph)
  | none =>
    match pickBest (scored_cands sh p) with
    | some c => (true, sh.place_and_split c.i p c.rot c.x c.y c.pw c.ph)
    | none => (false, sh)

/-! ### Stable sorting

Python's `sort`/`sorted` are stable; the unique stable sort is computed by
insertion sort.  `before p q` decides whether `p` may be placed before `q`;
an element is inserted in front of the first entry it may precede. -/

def insertBefore (before : α → α → Bool) (p : α) : List α → List α
  | [] => [p]
  | q :: qs => if before p q then p :: q :: qs else q :: insertBefore before p qs

def stableSort (before : α → α → Bool) : List α → List α
  | [] => []
  | p :: ps => insertBefore before p (stableSort before ps)

/-- `sorted(·, key=area, reverse=True)` on pieces (stable descending). -/
def sortPiecesDesc (l : List Piece) : List Piece :=
  stableSort (fun a b => decide (b.w * b.h ≤ a.w * a.h)) l

/-! ### Flattening, packer, score -/

/-- `_flatten_piece_list`, threading Python's name counter `c` (starting
at 1). -/
def flattenAux : List (Nat × Nat × Nat) → Nat → List Piece
  | [], _ => []
  | (w, h, q) :: rest, c =>
    ((List.range q).map (fun j => Piece.mk w h (c + j))) ++ flattenAux rest (c + q)

/-- `_flatten_piece_list(piece_list)`. -/
def _flatten_piece_list (piece_list : List (Nat × Nat × Nat)) : List Piece :=
  flattenAux piece_list 1

/-- The `ValueError` raised by `_pack_once` (its message interpolates the
piece and the sheet dimensions). -/
inductive PackErr where
  | oversized (p : Piece) (W H : Nat)
deriving DecidableEq, Repr

/-- The packer's inner loop: offer `p` to the existing sheets in index
order, accepting the first success. -/
def placeFirstFit (p : Piece) : List SheetLayout → Option (List SheetLayout)
  | [] => none
  | sh :: rest =>
    let r := sh.try_place_piece p
    if r.1 then some (r.2 :: rest)
    else
      match placeFirstFit p rest with
      | some rest' => some (sh :: rest')
      | none => none

/-- `_pack_once`'s piece loop. -/
def packOnceAux (W H K : Nat) (strat : String) (rot : Bool) :
    List Piece → List SheetLayout → Except PackErr (List SheetLayout)
  | [], sheets => .ok sheets
  | p :: rest, sheets =>
    match placeFirstFit p sheets with
    | some sheets' => packOnceAux W H K strat rot rest sheets'
    | none =>
      let r := (SheetLayout.init W H K strat rot).try_place_piece p
      if r.1 then packOnceAux W H K strat rot rest (sheets ++ [r.2])
      else .error (.oversized p W H)

/-- `_pack_once(pieces, W, H, K, strat, rot)`. -/
def _pack_once (pieces : List Piece) (W H K : Nat) (strat : String) (rot : Bool) :
    Except PackErr (List SheetLayout) :=
  packOnceAux W H K strat rot pieces []

/-- `_score_sheets`: the `(sheet_count, total_scrap)` pair.  Per-sheet
scrap is `W·H − used_area`; in every reachable state the placements are
disjoint and contained in the sheet, so the `Nat` subtraction is exact. -/
def _score_sheets (sheets : List SheetLayout) : Nat × Nat :=
  (sheets.length,
    (sheets.map (fun sh => sh.sheet_w * sh.sheet_h - sh.get_used_area)).sum)

/-- Python's lexicographic `<` on score pairs. -/
def scoreLt (a b : Nat × Nat) : Bool :=
  decide (a.1 < b.1 ∨ (a.1 = b.1 ∧ a.2 < b.2))

/-! ### Sheet rebuild and global compactor -/

/-- `_rebuild_sheet_from_placed`: harvest the placed parts as fresh pieces
(effective dimensions), reset the sheet, and re-place them in descending
effective-area order, ignoring placement failures (the source discards the
return value of `try_place_piece` here). -/
def _rebuild_sheet_from_placed (sh : SheetLayout) : SheetLayout :=
  let remain := sh.placed.map (fun p => Piece.mk p.width p.height p.piece.name)
  let sorted := sortPiecesDesc remain
  sorted.foldl (fun s rp => (s.try_place_piece rp).2)
    { sh with placed := [], free_rects := [⟨0, 0, sh.sheet_w, sh.sheet_h⟩] }

/-- The compactor's receiver loop: offer the candidate to each earlier
sheet in order under the driver's strategy/rotation, restoring the sheet's
own tags afterwards; a failed `try_place_piece` leaves the receiver
unchanged, so set-and-restore is the identity there. -/
def tryReceivers (strat : String) (rot : Bool) (cand : Piece) :
    List SheetLayout → Option (List SheetLayout)
  | [] => none
  | rcv :: rest =>
    let r := SheetLayout.try_place_piece
      { rcv with strategy := strat, allow_rotation := rot } cand
    if r.1 then
      some ({ r.2 with strategy := rcv.strategy,
                       allow_rotation := rcv.allow_rotation } :: rest)
    else
      match tryReceivers strat rot cand rest with
      | some rest' => some (rcv :: rest')
      | none => none

/-- The compactor's part loop: donor parts in ascending effective area;
the source `break`s after the first moved part. -/
def tryDonorParts (strat : String) (rot : Bool) :
    List PlacedPiece → List SheetLayout → Option (PlacedPiece × List SheetLayout)
  | [], _ => none
  | part :: rest, receivers =>
    let cand := Piece.mk part.width part.height part.piece.name
    match tryReceivers strat rot cand receivers with
    | some receivers' => some (part, receivers')
    | none => tryDonorParts strat rot rest receivers

/-- A throwaway sheet used as the (never taken) out-of-bounds default of
list indexing. -/
def dummySheet : SheetLayout := SheetLayout.init 0 0 0 "BSSF" false

/-- After the compactor moved `part` off the donor at index `si` into the
updated receiver prefix `receivers'`: remove the part, rebuild the donor if
it still has parts, otherwise pop it from the sheet list. -/
def afterMove (sheets : List SheetLayout) (si : Nat) (part : PlacedPiece)
    (receivers' : List SheetLayout) : List SheetLayout :=
  let donor := sheets.getD si dummySheet
  let sheets1 := receivers' ++ sheets.drop si
  let donor' := { donor with placed := donor.placed.erase part }
  if donor'.placed ≠ [] then sheets1.set si (_rebuild_sheet_from_placed donor')
  else sheets1.eraseIdx si

/-- One scan of the compactor's `while improved` body: donors from last to
second; after any move the part loop breaks, and the donor loop breaks
only when the score strictly improved. -/
def scanDonors (strat : String) (rot : Bool) :
    List Nat → List SheetLayout → Nat × Nat → List SheetLayout × Bool
  | [], sheets, _ => (sheets, false)
  | si :: idxs, sheets, best =>
    let donor := sheets.getD si dummySheet
    let parts := stableSort
      (fun a b => decide (a.width * a.height ≤ b.width * b.height)) donor.placed
    match tryDonorParts strat rot parts (sheets.take si) with
    | none => scanDonors strat rot idxs sheets best
    | some (part, receivers') =>
      let sheets2 := afterMove sheets si part receivers'
      if scoreLt (_score_sheets sheets2) best then (sheets2, true)
      else scanDonors strat rot idxs sheets2 best

theorem scanDonors_improved {strat : String} {rot : Bool} :
    ∀ {idxs : List Nat} {sheets s' : List SheetLayout} {best : Nat × Nat},
      scanDonors strat rot idxs sheets best = (s', true) →
      scoreLt (_score_sheets s') best = true := by
  intro idxs
  induction idxs with
  | nil => intro sheets s' best h; simp [scanDonors] at h
  | cons si rest ih =>
    intro sheets s' best h
    simp only [scanDonors] at h
    split at h
    · exact ih h
    · split at h
      · injection h with h1 h2
        subst h1
        assumption
      · exact ih h

theorem scoreLt_lex {a b : Nat × Nat} (h : scoreLt a b = true) :
    Prod.Lex (· < ·) (· < ·) a b := by
  simp only [scoreLt, decide_eq_true_eq] at h
  rcases a with ⟨a1, a2⟩
  rcases b with ⟨b1, b2⟩
  rcases h with h | ⟨rfl, h⟩
  · exact Prod.Lex.left _ _ h
  · exact Prod.Lex.right _ h

/-- The compactor's outer `while improved` loop, with an explicit
structural fuel bound. -/
def compactLoopF (strat : String) (rot : Bool) : Nat → List SheetLayout →
    List SheetLayout
  | 0, sheets => sheets
  | fuel + 1, sheets =>
    let idxs := ((List.range sheets.length).drop 1).reverse
    let r := scanDonors strat rot idxs sheets (_score_sheets sheets)
    if r.2 = true then compactLoopF strat rot fuel r.1 else r.1

/-- Total area of the sheets in a list; each compactor move keeps every
surviving sheet's dimensions, so this never grows during the loop. -/
def totalSheetArea (sheets : List SheetLayout) : Nat :=
  (sheets.map (fun sh => sh.sheet_w * sh.sheet_h)).sum

/-- Iteration bound for the compactor: each improving scan strictly
decreases the lexicographic `(sheet_count, scrap)` score, scrap never
exceeds the (non-increasing) total area, and a dissolved sheet takes its
area with it, so `length·(area+1) + scrap` strictly decreases per
iteration (`compactLoopF_irrel` below); hence this fuel always reaches the
loop's exit and the fuel-out branch is never taken. -/
def compactFuel (sheets : List SheetLayout) : Nat :=
  sheets.length * (totalSheetArea sheets + 1) + (_score_sheets sheets).2 + 1

/-- `while improved:` of `_global_compactor`. -/
def compactLoop (strat : String) (rot : Bool) (sheets : List SheetLayout) :
    List SheetLayout :=
  compactLoopF strat rot (compactFuel sheets) sheets

/-- `_global_compactor(sheets, strat, rot)` (in-place in the source,
functional here). -/
def _global_compactor (sheets : List SheetLayout) (strat : String) (rot : Bool) :
    List SheetLayout :=
  compactLoop strat rot sheets

/-! ### Heavy refiner -/

/-- The abstract pseudo-random source: the n-th call to `random.shuffle`
replaces its argument list by `σ n` of it. -/
abbrev Shuffle := Nat → List Piece → List Piece

/-- `random.shuffle` permutes its argument; this is the only fact the
embedding ever assumes about the random source. -/
def IsShuffle (σ : Shuffle) : Prop := ∀ n l, (σ n l).Perm l

/-- The near-equal-area chunked shuffle (driver lines and the refiner's
pool loop are the same code): scan maximal runs whose areas lie within
`max(1, area0 // 50)` of the run head's area and shuffle each run in
place, advancing the random-call counter per run. -/
def shuffle_chunksF (σ : Shuffle) : Nat → Nat → List Piece → List Piece × Nat
  | _, k, [] => ([], k)
  | 0, k, l => (l, k)
  | fuel + 1, k, p :: rest =>
    let area0 := p.w * p.h
    let band := max 1 (area0 / 50)
    let run := rest.takeWhile
      (fun q => decide (max area0 (q.w * q.h) - min area0 (q.w * q.h) ≤ band))
    let chunk := p :: run
    let shuffled := σ k chunk
    let r := shuffle_chunksF σ fuel (k + 1) (rest.drop run.length)
    (shuffled ++ r.1, r.2)

/-- Each chunk consumes at least its head, so `l.length` structural fuel
always reaches the end of the list (`shuffle_chunksF_irrel`); the fuel-out
branch is never taken at the fuel supplied here. -/
def shuffle_chunks (σ : Shuffle) (k : Nat) (l : List Piece) : List Piece × Nat :=
  shuffle_chunksF σ l.length k l

/-- Any fuel of at least the list length gives the same chunked shuffle. -/
theorem shuffle_chunksF_irrel (σ : Shuffle) :
    ∀ (f1 f2 k : Nat) (l : List Piece), l.length ≤ f1 → l.length ≤ f2 →
      shuffle_chunksF σ f1 k l = shuffle_chunksF σ f2 k l := by
  intro f1
  induction f1 with
  | zero =>
    intro f2 k l h1 _
    rcases l with _ | ⟨p, rest⟩
    · cases f2 <;> rfl
    · simp only [List.length_cons] at h1
      omega
  | succ f1 ih =>
    intro f2 k l h1 h2
    rcases l with _ | ⟨p, rest⟩
    · cases f2 <;> rfl
    · rcases f2 with _ | f2
      · simp only [List.length_cons] at h2
        omega
      · simp only [List.length_cons, Nat.succ_le_succ_iff] at h1 h2
        simp only [shuffle_chunksF]
        rw [ih f2 (k + 1) _ (by simp only [List.length_drop]; omega)
          (by simp only [List.length_drop]; omega)]

/-- `sheet_waste` from the refiner. -/
def sheet_waste (sh : SheetLayout) : Nat :=
  sh.sheet_w * sh.sheet_h - sh.get_used_area

/-- The refiner's clone re-pack of one non-victim sheet: feed its placed
parts, in descending effective-area order, into a fresh sheet, ignoring
failures (the source discards the return value of `try_place_piece`). -/
def cloneSheet (W H K : Nat) (strat : String) (rot : Bool) (sh : SheetLayout) :
    SheetLayout :=
  (stableSort (fun a b => decide (b.width * b.height ≤ a.width * a.height))
      sh.placed).foldl
    (fun c pp => (c.try_place_piece (Piece.mk pp.width pp.height pp.piece.name)).2)
    (SheetLayout.init W H K strat rot)

/-- The refiner's inner first-fit pack of the pool; `none` models the
`fail = True` path (a pool piece refused by a fresh sheet). -/
def packPoolAux (W H K : Nat) (strat : String) (rot : Bool) :
    List Piece → List SheetLayout → Option (List SheetLayout)
  | [], sheets => some sheets
  | p :: rest, sheets =>
    match placeFirstFit p sheets with
    | some sheets' => packPoolAux W H K strat rot rest sheets'
    | none =>
      let r := (SheetLayout.init W H K strat rot).try_place_piece p
      if r.1 then packPoolAux W H K strat rot rest (sheets ++ [r.2])
      else none

/-- One victim attempt of a refiner round: dissolve the victim, pool its
parts with clone re-packs of every other sheet, shuffle the pool in
near-equal-area chunks, re-pack it, and accept on strict improvement. -/
def refineVictim (σ : Shuffle) (strat : String) (rot : Bool) (W H K : Nat)
    (sheets : List SheetLayout) (vi : Nat) (k : Nat) :
    Option (List SheetLayout) × Nat :=
  let victim := sheets.getD vi dummySheet
  let victim_pieces := victim.placed.map
    (fun p => Piece.mk p.width p.height p.piece.name)
  let others := ((sheets.enum.filter (fun jsh => decide (jsh.1 ≠ vi))).map
    (fun jsh => cloneSheet W H K strat rot jsh.2))
  let pool := (others.map (fun sh2 => sh2.placed.map
      (fun pp => Piece.mk pp.width pp.height pp.piece.name))).flatten
    ++ victim_pieces
  let pool := stableSort (fun a b => decide (b.w * b.h ≤ a.w * a.h)) pool
  let pk := shuffle_chunks σ k pool
  match packPoolAux W H K strat rot pk.1 [] with
  | none => (none, pk.2)
  | some new_sheets =>
    if scoreLt (_score_sheets new_sheets) (_score_sheets sheets) then
      (some new_sheets, pk.2)
    else (none, pk.2)

/-- The refiner's victim loop over `order[:2]`: try each candidate victim
in turn (the source's dead bounds guard included) and stop at the first
accepted replacement. -/
def refineVictims (σ : Shuffle) (strat : String) (rot : Bool) (W H K : Nat) :
    List Nat → List SheetLayout → Nat → List SheetLayout × Nat × Bool
  | [], sheets, k => (sheets, k, false)
  | vi :: vis, sheets, k =>
    if sheets.length ≤ vi then refineVictims σ strat rot W H K vis sheets k
    else
      match refineVictim σ strat rot W H K sheets vi k with
      | (some new_sheets, k') => (new_sheets, k', true)
      | (none, k') => refineVictims σ strat rot W H K vis sheets k'

/-- The refiner's round loop: stop at ≤ 1 sheet, rank sheets by descending
waste, try the two worst as victims one at a time, and stop early when a
round changes nothing. -/
def refineRounds (σ : Shuffle) (strat : String) (rot : Bool) (W H K : Nat) :
    Nat → List SheetLayout → Nat → List SheetLayout × Nat
  | 0, sheets, k => (sheets, k)
  | r + 1, sheets, k =>
    if sheets.length ≤ 1 then (sheets, k)
    else
      let order := stableSort
        (fun a b => decide (sheet_waste (sheets.getD b dummySheet) ≤
                            sheet_waste (sheets.getD a dummySheet)))
        (List.range sheets.length)
      match refineVictims σ strat rot W H K (order.take 2) sheets k with
      | (sheets', k', true) => refineRounds σ strat rot W H K r sheets' k'
      | (sheets', k', false) => (sheets', k')

/-- `_global_refine_heavy(sheets, strat, rot, W, H, K, rounds)`. -/
def _global_refine_heavy (σ : Shuffle) (k : Nat) (sheets : List SheetLayout)
    (strat : String) (rot : Bool) (W H K : Nat) (rounds : Nat := 3) :
    List SheetLayout × Nat :=
  refineRounds σ strat rot W H K rounds sheets k

/-! ### Multi-start driver -/

/-- The attempt loop of `optimize_cut_multi_start`, threading the
random-call counter and the best `(sheets, score)` so far; an exception
from `_pack_once` propagates out of the whole driver (the source has no
handler around it). -/
def driverLoop (σ : Shuffle) (W H K : Nat) (strat : String) (rot : Bool)
    (base : List Piece) :
    Nat → Nat → Option (List SheetLayout × (Nat × Nat)) →
    Except PackErr (Option (List SheetLayout))
  | 0, _, best => .ok (best.map (fun b => b.1))
  | n + 1, k, best =>
    let pieces := sortPiecesDesc base
    let pk := shuffle_chunks σ k pieces
    match _pack_once pk.1 W H K strat rot with
    | .error e => .error e
    | .ok sheets =>
      let sheets1 := _global_compactor sheets strat rot
      let rk := _global_refine_heavy σ pk.2 sheets1 strat rot W H K 3
      let sc := _score_sheets rk.1
      let best' :=
        match best with
        | none => some (rk.1, sc)
        | some b => if scoreLt sc b.2 then some (rk.1, sc) else some b
      driverLoop σ W H K strat rot base n rk.2 best'

/-- `optimize_cut_multi_start(W, H, K, piece_list, strategy,
allow_rotation, attempts)`, with the random source `σ` and its initial
call counter `k` made explicit.  `best_sheets or []` yields `[]` when no
attempt ran. -/
def optimize_cut_multi_start (σ : Shuffle) (k : Nat) (W H K : Nat)
    (piece_list : List (Nat × Nat × Nat)) (strategy : String)
    (allow_rotation : Bool) (attempts : Nat) :
    Except PackErr (List SheetLayout) :=
  let base := _flatten_piece_list piece_list
  match driverLoop σ W H K strategy allow_rotation base attempts k none with
  | .error e => .error e
  | .ok none => .ok []
  | .ok (some sheets) => .ok sheets

/-! ### Order lemmas for the candidate choice -/

theorem keyLt_irrefl : ∀ k : List Nat, keyLt k k = false
  | [] => rfl
  | a :: as => by
    simp only [keyLt, Nat.lt_irrefl, if_false]
    exact keyLt_irrefl as

theorem keyLt_cons (a b : Nat) (as bs : List Nat) :
    keyLt (a :: as) (b :: bs) =
      if a < b then true else if b < a then false else keyLt as bs := rfl

theorem keyLt_trans : ∀ {a b c : List Nat},
    keyLt a b = true → keyLt b c = true → keyLt a c = true
  | [], [], _, h1, _ => by simp [keyLt] at h1
  | [], _ :: _, [], _, h2 => by simp [keyLt] at h2
  | [], _ :: _, _ :: _, _, _ => rfl
  | _ :: _, [], _, h1, _ => by simp [keyLt] at h1
  | _ :: _, _ :: _, [], _, h2 => by simp [keyLt] at h2
  | a :: as, b :: bs, c :: cs, h1, h2 => by
    simp only [keyLt_cons] at h1 h2 ⊢
    rcases Nat.lt_trichotomy a b with hab | hab | hab
    · rcases Nat.lt_trichotomy b c with hbc | hbc | hbc
      · simp [Nat.lt_trans hab hbc]
      · subst hbc
        simp [hab]
      · simp [Nat.lt_asymm hbc, hbc] at h2
    · subst hab
      simp only [Nat.lt_irrefl, if_false] at h1
      rcases Nat.lt_trichotomy a c with hac | hac | hac
      · simp [hac]
      · subst hac
        simp only [Nat.lt_irrefl, if_false] at h2 ⊢
        exact keyLt_trans h1 h2
      · simp [Nat.lt_asymm hac, hac] at h2
    · simp [Nat.lt_asymm hab, hab] at h1

theorem keyLt_total : ∀ {a b : List Nat},
    keyLt a b = false → keyLt b a = false → a = b
  | [], [], _, _ => rfl
  | [], _ :: _, h1, _ => by simp [keyLt] at h1
  | _ :: _, [], _, h2 => by simp [keyLt] at h2
  | a :: as, b :: bs, h1, h2 => by
    simp only [keyLt_cons] at h1 h2
    rcases Nat.lt_trichotomy a b with hab | hab | hab
    · simp [hab] at h1
    · subst hab
      simp only [Nat.lt_irrefl, if_false] at h1 h2
      rw [keyLt_total h1 h2]
    · simp [hab] at h2

theorem keyLt_false_trans : ∀ {a b c : List Nat},
    keyLt a b = false → keyLt b c = false → keyLt a c = false
  | [], b, c, h1, h2 => by
    cases b with
    | nil =>
      cases c with
      | nil => rfl
      | cons _ _ => simp [keyLt] at h2
    | cons _ _ => simp [keyLt] at h1
  | _ :: _, [], c, _, h2 => by
    cases c with
    | nil => rfl
    | cons _ _ => simp [keyLt] at h2
  | _ :: _, _ :: _, [], _, _ => rfl
  | a :: as, b :: bs, c :: cs, h1, h2 => by
    simp only [keyLt_cons] at h1 h2 ⊢
    rcases Nat.lt_trichotomy a b with hab | hab | hab
    · simp [hab] at h1
    · subst hab
      simp only [Nat.lt_irrefl, if_false] at h1
      rcases Nat.lt_trichotomy a c with hac | hac | hac
      · simp [hac] at h2
      · subst hac
        simp only [Nat.lt_irrefl, if_false] at h2 ⊢
        exact keyLt_false_trans h1 h2
      · simp [Nat.lt_asymm hac, hac]
    · rcases Nat.lt_trichotomy b c with hbc | hbc | hbc
      · simp [hbc] at h2
      · subst hbc
        simp [Nat.lt_asymm hab, hab]
      · have hca : c < a := Nat.lt_trans hbc hab
        simp [Nat.lt_asymm hca, hca]

theorem foldl_stepMin_spec : ∀ (l : List Cand) (b : Cand),
    ∃ c, l.foldl
        (fun best c =>
          match best with
          | none => some c
          | some b => if keyLt c.key b.key then some c else some b)
        (some b) = some c ∧
      (c = b ∨ c ∈ l) ∧ keyLt b.key c.key = false ∧
      ∀ d ∈ l, keyLt d.key c.key = false := by
  intro l
  induction l with
  | nil =>
    intro b
    exact ⟨b, rfl, Or.inl rfl, keyLt_irrefl _, by simp⟩
  | cons x xs ih =>
    intro b
    by_cases hx : keyLt x.key b.key = true
    · obtain ⟨c, hc, hmem, hxc, hall⟩ := ih x
      refine ⟨c, ?_, ?_, ?_, ?_⟩
      · simpa [List.foldl_cons, hx] using hc
      · rcases hmem with rfl | h
        · exact Or.inr (List.mem_cons_self _ _)
        · exact Or.inr (List.mem_cons_of_mem _ h)
      · by_cases hbc : keyLt b.key c.key = true
        · exact absurd (keyLt_trans hx hbc) (by simp [hxc])
        · revert hbc
          cases keyLt b.key c.key <;> simp
      · intro d hd
        rcases List.mem_cons.mp hd with rfl | hd'
        · exact hxc
        · exact hall d hd'
    · have hx' : keyLt x.key b.key = false := by
        revert hx
        cases keyLt x.key b.key <;> simp
      obtain ⟨c, hc, hmem, hbc, hall⟩ := ih b
      refine ⟨c, ?_, ?_, hbc, ?_⟩
      · simpa [List.foldl_cons, hx'] using hc
      · rcases hmem with rfl | h
        · exact Or.inl rfl
        · exact Or.inr (List.mem_cons_of_mem _ h)
      · intro d hd
        rcases List.mem_cons.mp hd with rfl | hd'
        · exact keyLt_false_trans hx' hbc
        · exact hall d hd'

theorem pickBest_spec (l : List Cand) :
    (l = [] ∧ pickBest l = none) ∨
    ∃ c, pickBest l = some c ∧ c ∈ l ∧ ∀ d ∈ l, keyLt d.key c.key = false := by
  cases l with
  | nil => exact Or.inl ⟨rfl, rfl⟩
  | cons x xs =>
    obtain ⟨c, hc, hmem, hxc, hall⟩ := foldl_stepMin_spec xs x
    refine Or.inr ⟨c, ?_, ?_, ?_⟩
    · simpa [pickBest, List.foldl_cons] using hc
    · rcases hmem with rfl | h
      · exact List.mem_cons_self _ _
      · exact List.mem_cons_of_mem _ h
    · intro d hd
      rcases List.mem_cons.mp hd with rfl | hd'
      · exact hxc
      · exact hall d hd'

/-! ### Candidate soundness and a case analysis of `try_place_piece` -/

/-- What every candidate of either pass records: a real free-rect index, a
permitted orientation, placement at the rect's corner, and fitting
dimensions. -/
def CandOK (sh : SheetLayout) (p : Piece) (c : Cand) : Prop :=
  ∃ fr, sh.free_rects[c.i]? = some fr ∧
    c.rot ∈ orientations sh.allow_rotation ∧
    c.x = fr.x ∧ c.y = fr.y ∧
    c.pw = (orientedDims p c.rot).1 ∧ c.ph = (orientedDims p c.rot).2 ∧
    c.pw ≤ fr.w ∧ c.ph ≤ fr.h

theorem exact_cands_sound {sh : SheetLayout} {p : Piece} {c : Cand}
    (h : c ∈ exact_cands sh p) : CandOK sh p c := by
  simp only [exact_cands, List.mem_flatten, List.mem_map] at h
  obtain ⟨l, ⟨⟨i, fr⟩, hin, rfl⟩, hc⟩ := h
  rw [List.mk_mem_enum_iff_getElem?] at hin
  simp only [List.mem_filterMap] at hc
  obtain ⟨rot, hrot, heq⟩ := hc
  split at heq
  · next hcond =>
    cases heq
    exact ⟨fr, hin, hrot, rfl, rfl, rfl, rfl, hcond.1, hcond.2.1⟩
  · cases heq

theorem scored_cands_sound {sh : SheetLayout} {p : Piece} {c : Cand}
    (h : c ∈ scored_cands sh p) : CandOK sh p c := by
  simp only [scored_cands, List.mem_flatten, List.mem_map] at h
  obtain ⟨l, ⟨⟨i, fr⟩, hin, rfl⟩, hc⟩ := h
  rw [List.mk_mem_enum_iff_getElem?] at hin
  simp only [List.mem_filterMap] at hc
  obtain ⟨rot, hrot, heq⟩ := hc
  split at heq
  · next hcond =>
    cases heq
    exact ⟨fr, hin, hrot, rfl, rfl, rfl, rfl, hcond.1, hcond.2⟩
  · cases heq

/-- `try_place_piece` either fails leaving the sheet untouched, or places a
sound candidate via `_place_and_split`. -/
theorem try_place_cases (sh : SheetLayout) (p : Piece) :
    sh.try_place_piece p = (false, sh) ∨
    ∃ c, CandOK sh p c ∧
      sh.try_place_piece p =
        (true, sh.place_and_split c.i p c.rot c.x c.y c.pw c.ph) := by
  unfold SheetLayout.try_place_piece
  rcases pickBest_spec (exact_cands sh p) with ⟨_, he⟩ | ⟨c, hc, hmem, _⟩
  · rw [he]
    rcases pickBest_spec (scored_cands sh p) with ⟨_, hs⟩ | ⟨c, hc, hmem, _⟩
    · rw [hs]
      exact Or.inl rfl
    · rw [hc]
      exact Or.inr ⟨c, scored_cands_sound hmem, rfl⟩
  · rw [hc]
    exact Or.inr ⟨c, exact_cands_sound hmem, rfl⟩

theorem place_and_split_placed (sh : SheetLayout) (fr_i : Nat) (p : Piece)
    (rot : Bool) (x y pw ph : Nat) :
    (sh.place_and_split fr_i p rot x y pw ph).placed =
      sh.placed ++ [⟨p, x, y, rot⟩] := rfl

theorem place_and_split_dims (sh : SheetLayout) (fr_i : Nat) (p : Piece)
    (rot : Bool) (x y pw ph : Nat) :
    (sh.place_and_split fr_i p rot x y pw ph).sheet_w = sh.sheet_w ∧
    (sh.place_and_split fr_i p rot x y pw ph).sheet_h = sh.sheet_h ∧
    (sh.place_and_split fr_i p rot x y pw ph).kerf = sh.kerf ∧
    (sh.place_and_split fr_i p rot x y pw ph).strategy = sh.strategy ∧
    (sh.place_and_split fr_i p rot x y pw ph).allow_rotation = sh.allow_rotation :=
  ⟨rfl, rfl, rfl, rfl, rfl⟩

/-- On a successful placement the placed list gains exactly the offered
piece (at the end). -/
theorem try_place_success_placed {sh : SheetLayout} {p : Piece}
    (h : (sh.try_place_piece p).1 = true) :
    ∃ x y rot, (sh.try_place_piece p).2.placed =
      sh.placed ++ [⟨p, x, y, rot⟩] := by
  rcases try_place_cases sh p with hf | ⟨c, _, hs⟩
  · rw [hf] at h
    cases h
  · rw [hs]
    exact ⟨c.x, c.y, c.rot, rfl⟩

/-! ### Geometry: bounds, disjointness, and their preservation -/

/-- The effective rectangle `(x, y, effective_w, effective_h)` of a placed
piece. -/
def effRect (p : PlacedPiece) : FreeRect := ⟨p.x, p.y, p.width, p.height⟩

/-- A rectangle lies inside the `W × H` sheet. -/
def inBounds (W H : Nat) (r : FreeRect) : Prop := r.x + r.w ≤ W ∧ r.y + r.h ≤ H

theorem intersects_false_iff {a b : FreeRect} :
    SheetLayout.intersects a b = false ↔
      (a.x + a.w ≤ b.x ∨ b.x + b.w ≤ a.x ∨ a.y + a.h ≤ b.y ∨ b.y + b.h ≤ a.y) := by
  simp only [SheetLayout.intersects, decide_not, Bool.not_eq_false']
  rw [decide_eq_true_iff]

theorem intersects_comm {a b : FreeRect} :
    SheetLayout.intersects a b = SheetLayout.intersects b a := by
  simp only [SheetLayout.intersects, decide_eq_decide]
  omega

theorem containsR_true_iff {a b : FreeRect} :
    SheetLayout.containsR a b = true ↔
      (b.x ≥ a.x ∧ b.y ≥ a.y ∧ b.x + b.w ≤ a.x + a.w ∧ b.y + b.h ≤ a.y + a.h) := by
  simp [SheetLayout.containsR]

theorem containsR_refl (a : FreeRect) : SheetLayout.containsR a a = true := by
  rw [containsR_true_iff]
  omega

theorem containsR_trans {a b c : FreeRect}
    (h1 : SheetLayout.containsR a b = true) (h2 : SheetLayout.containsR b c = true) :
    SheetLayout.containsR a c = true := by
  rw [containsR_true_iff] at h1 h2 ⊢
  omega

theorem intersects_of_containsR {fr r q : FreeRect}
    (hc : SheetLayout.containsR fr r = true)
    (hd : SheetLayout.intersects fr q = false) :
    SheetLayout.intersects r q = false := by
  rw [containsR_true_iff] at hc
  rw [intersects_false_iff] at hd ⊢
  omega

theorem inBounds_of_containsR {W H : Nat} {fr r : FreeRect}
    (hc : SheetLayout.containsR fr r = true) (hb : inBounds W H fr) :
    inBounds W H r := by
  rw [containsR_true_iff] at hc
  rcases hb with ⟨h1, h2⟩
  exact ⟨by omega, by omega⟩

/-- Every output of the prune step is contained in some input rect and is
disjoint from the used rectangle. -/
theorem prune_sound {free : List FreeRect} {used : FreeRect} :
    ∀ r ∈ prune_free_rects_with free used,
      (∃ fr ∈ free, SheetLayout.containsR fr r = true) ∧
        SheetLayout.intersects r used = false := by
  intro r hr
  unfold prune_free_rects_with at hr
  simp only [List.mem_filter, decide_eq_true_eq] at hr
  obtain ⟨hr, hpos⟩ := hr
  simp only [List.mem_flatten, List.mem_map] at hr
  obtain ⟨l, ⟨fr, hfr, rfl⟩, hrl⟩ := hr
  by_cases hint : SheetLayout.intersects fr used = false
  · rw [if_pos hint] at hrl
    rw [List.mem_singleton] at hrl
    subst hrl
    exact ⟨⟨r, hfr, containsR_refl r⟩, hint⟩
  · rw [if_neg hint] at hrl
    have hfacts : ¬ (fr.x + fr.w ≤ used.x ∨ used.x + used.w ≤ fr.x ∨
        fr.y + fr.h ≤ used.y ∨ used.y + used.h ≤ fr.y) := by
      intro hcon
      exact hint (intersects_false_iff.mpr hcon)
    push_neg at hfacts
    simp only [List.mem_append] at hrl
    rcases hrl with ((h | h) | h) | h
    · by_cases hg : used.y > fr.y
      · rw [if_pos hg, List.mem_singleton] at h
        subst h
        refine ⟨⟨fr, hfr, ?_⟩, ?_⟩
        · rw [containsR_true_iff]
          simp only
          omega
        · rw [intersects_false_iff]
          simp only
          omega
      · rw [if_neg hg] at h
        simp at h
    · by_cases hg : used.y + used.h < fr.y + fr.h
      · rw [if_pos hg, List.mem_singleton] at h
        subst h
        refine ⟨⟨fr, hfr, ?_⟩, ?_⟩
        · rw [containsR_true_iff]
          simp only
          omega
        · rw [intersects_false_iff]
          simp only
          omega
      · rw [if_neg hg] at h
        simp at h
    · by_cases hg : used.x > fr.x
      · rw [if_pos hg, List.mem_singleton] at h
        subst h
        simp only at hpos
        refine ⟨⟨fr, hfr, ?_⟩, ?_⟩
        · rw [containsR_true_iff]
          simp only
          omega
        · rw [intersects_false_iff]
          simp only
          omega
      · rw [if_neg hg] at h
        simp at h
    · by_cases hg : used.x + used.w < fr.x + fr.w
      · rw [if_pos hg, List.mem_singleton] at h
        subst h
        simp only at hpos
        refine ⟨⟨fr, hfr, ?_⟩, ?_⟩
        · rw [containsR_true_iff]
          simp only
          omega
        · rw [intersects_false_iff]
          simp only
          omega
      · rw [if_neg hg] at h
        simp at h
/-- A merged pair covers exactly the union of the two rects, so any
property expressed by linear bounds is preserved; we record the two
closures the invariant needs. -/
theorem mergeTwo_inBounds {W H : Nat} {a b m : FreeRect}
    (h : mergeTwo a b = some m) (ha : inBounds W H a) (hb : inBounds W H b) :
    inBounds W H m := by
  unfold mergeTwo at h
  rcases ha with ⟨ha1, ha2⟩
  rcases hb with ⟨hb1, hb2⟩
  split at h
  · next hc =>
    cases h
    exact ⟨by simp only; omega, by simp only; omega⟩
  · split at h
    · next hc =>
      cases h
      exact ⟨by simp only; omega, by simp only; omega⟩
    · cases h

theorem mergeTwo_no_hit {a b m q : FreeRect} (hq : 0 < q.w ∧ 0 < q.h)
    (h : mergeTwo a b = some m)
    (ha : SheetLayout.intersects a q = false)
    (hb : SheetLayout.intersects b q = false) :
    SheetLayout.intersects m q = false := by
  unfold mergeTwo at h
  rw [intersects_false_iff] at ha hb
  split at h
  · next hc =>
    cases h
    rw [intersects_false_iff]
    simp only
    omega
  · split at h
    · next hc =>
      cases h
      rw [intersects_false_iff]
      simp only
      omega
    · cases h

/-- A property closed under `mergeTwo` survives `findPartner`. -/
theorem findPartner_pred {P : FreeRect → Prop}
    (hcl : ∀ a b m, mergeTwo a b = some m → P a → P b → P m) :
    ∀ {a : FreeRect} {l : List FreeRect} {m : FreeRect} {rest : List FreeRect},
      findPartner a l = some (m, rest) → P a → (∀ r ∈ l, P r) →
      P m ∧ ∀ r ∈ rest, P r := by
  intro a l
  induction l with
  | nil => intro m rest h _ _; simp [findPartner] at h
  | cons b bs ih =>
    intro m rest h ha hl
    simp only [findPartner] at h
    cases hm : mergeTwo a b with
    | some m' =>
      rw [hm] at h
      cases h
      exact ⟨hcl _ _ _ hm ha (hl b (List.mem_cons_self _ _)),
        fun r hr => hl r (List.mem_cons_of_mem _ hr)⟩
    | none =>
      rw [hm] at h
      cases hf : findPartner a bs with
      | none => rw [hf] at h; cases h
      | some p =>
        rw [hf] at h
        cases p with
        | mk m'' rest'' =>
          cases h
          obtain ⟨hm'', hrest''⟩ :=
            ih hf ha (fun r hr => hl r (List.mem_cons_of_mem _ hr))
          refine ⟨hm'', fun r hr => ?_⟩
          rcases List.mem_cons.mp hr with rfl | hr'
          · exact hl r (List.mem_cons_self _ _)
          · exact hrest'' r hr'

/-- A property closed under `mergeTwo` survives one merge pass. -/
theorem mergePass_pred {P : FreeRect → Prop}
    (hcl : ∀ a b m, mergeTwo a b = some m → P a → P b → P m) :
    ∀ (l : List FreeRect), (∀ r ∈ l, P r) → ∀ r ∈ (mergePass l).1, P r
  | [] => by intro _ r hr; simp [mergePass_nil] at hr
  | a :: rest => by
    intro hl r hr
    cases hf : findPartner a rest with
    | some pr =>
      rcases pr with ⟨m, rest'⟩
      have hlen := findPartner_length hf
      have ih := mergePass_pred hcl rest'
      rw [mergePass_cons_some hf] at hr
      obtain ⟨hm, hrest'⟩ := findPartner_pred hcl hf
        (hl a (List.mem_cons_self _ _))
        (fun q hq => hl q (List.mem_cons_of_mem _ hq))
      rcases List.mem_cons.mp hr with rfl | hr'
      · exact hm
      · exact ih hrest' r hr'
    | none =>
      have ih := mergePass_pred hcl rest
      rw [mergePass_cons_none hf] at hr
      rcases List.mem_cons.mp hr with rfl | hr'
      · exact hl r (List.mem_cons_self _ _)
      · exact ih (fun q hq => hl q (List.mem_cons_of_mem _ hq)) r hr'
termination_by l => l.length
decreasing_by
  all_goals simp only [List.length_cons]
  all_goals omega

/-- A property closed under `mergeTwo` survives any number of merge
passes. -/
theorem mergeLoopF_pred {P : FreeRect → Prop}
    (hcl : ∀ a b m, mergeTwo a b = some m → P a → P b → P m) :
    ∀ (fuel : Nat) (l : List FreeRect), (∀ r ∈ l, P r) →
      ∀ r ∈ mergeLoopF fuel l, P r := by
  intro fuel
  induction fuel with
  | zero => intro l hl r hr; exact hl r hr
  | succ fuel ih =>
    intro l hl r hr
    simp only [mergeLoopF] at hr
    by_cases hm : (mergePass l).2 = true
    · rw [if_pos hm] at hr
      exact ih (mergePass l).1 (mergePass_pred hcl l hl) r hr
    · rw [if_neg hm] at hr
      exact mergePass_pred hcl l hl r hr

/-- A property closed under `mergeTwo` survives the merge fixpoint loop. -/
theorem mergeLoop_pred {P : FreeRect → Prop}
    (hcl : ∀ a b m, mergeTwo a b = some m → P a → P b → P m) :
    ∀ (l : List FreeRect), (∀ r ∈ l, P r) → ∀ r ∈ mergeLoop l, P r :=
  fun l hl => mergeLoopF_pred hcl (l.length + 1) l hl

/-- The containment filter only keeps input rects. -/
theorem containment_filter_sub {l : List FreeRect} :
    ∀ r ∈ containment_filter l, r ∈ l := by
  intro r hr
  unfold containment_filter at hr
  simp only [List.mem_map, List.mem_filter] at hr
  obtain ⟨⟨i, a⟩, ⟨hmem, _⟩, rfl⟩ := hr
  rw [List.mk_mem_enum_iff_getElem?] at hmem
  exact List.getElem?_mem hmem

/-- A property closed under `mergeTwo` survives `_merge_free_rects`. -/
theorem merge_free_rects_pred {P : FreeRect → Prop}
    (hcl : ∀ a b m, mergeTwo a b = some m → P a → P b → P m)
    {l : List FreeRect} (hl : ∀ r ∈ l, P r) :
    ∀ r ∈ merge_free_rects l, P r := by
  intro r hr
  exact mergeLoop_pred hcl _
    (fun q hq => hl q (containment_filter_sub q hq)) r hr

/- The merge functions are only reasoned about through the lemmas above;
keeping them opaque from here on keeps elaboration of the later invariant
proofs from unfolding them. -/
attribute [irreducible] mergePassF mergePass mergeLoopF mergeLoop merge_free_rects

/-! ### The sheet invariant: in-bounds free rects, free rects disjoint
from placements, pairwise-disjoint placements, positive placements -/

def SheetInv (sh : SheetLayout) : Prop :=
  (∀ r ∈ sh.free_rects, inBounds sh.sheet_w sh.sheet_h r) ∧
  (∀ r ∈ sh.free_rects, ∀ q ∈ sh.placed,
    SheetLayout.intersects r (effRect q) = false) ∧
  List.Pairwise
    (fun p q => SheetLayout.intersects (effRect p) (effRect q) = false)
    sh.placed ∧
  (∀ q ∈ sh.placed, 0 < q.width ∧ 0 < q.height)

theorem sheetInv_init (W H K : Nat) (strat : String) (rot : Bool) :
    SheetInv (SheetLayout.init W H K strat rot) := by
  refine ⟨?_, ?_, ?_, ?_⟩ <;> simp [SheetLayout.init, inBounds]

/-- The invariant ignores the strategy and rotation tags. -/
theorem sheetInv_retag {sh : SheetLayout} (h : SheetInv sh) (s : String) (b : Bool) :
    SheetInv { sh with strategy := s, allow_rotation := b } := h

theorem orientedDims_pos {p : Piece} (hp : 0 < p.w ∧ 0 < p.h) (rot : Bool) :
    0 < (orientedDims p rot).1 ∧ 0 < (orientedDims p rot).2 := by
  cases rot
  · simpa [orientedDims] using hp
  · simp only [orientedDims]
    exact ⟨hp.2, hp.1⟩

theorem width_orient (p : Piece) (x y : Nat) (rot : Bool) :
    (PlacedPiece.mk p x y rot).width = (orientedDims p rot).1 ∧
    (PlacedPiece.mk p x y rot).height = (orientedDims p rot).2 := by
  cases rot <;> simp [PlacedPiece.width, PlacedPiece.height, orientedDims]

/-- Every rect in the split list (survivors plus the chosen rect's right
and top remnants) is contained in some original free rect. -/
theorem remnants_sound {free : List FreeRect} {fr : FreeRect} {i : Nat}
    (hget : free[i]? = some fr) (rx rw by_ bh : Nat)
    (hrx : fr.x ≤ rx) (hrw : rw = (fr.x + fr.w) - rx)
    (hby : fr.y ≤ by_) (hbh : bh = (fr.y + fr.h) - by_) :
    ∀ r ∈ (if 0 < bh then
             (if 0 < rw then free.eraseIdx i ++ [⟨rx, fr.y, rw, fr.h⟩]
              else free.eraseIdx i) ++ [⟨fr.x, by_, fr.w, bh⟩]
           else
             (if 0 < rw then free.eraseIdx i ++ [⟨rx, fr.y, rw, fr.h⟩]
              else free.eraseIdx i)),
      ∃ fr' ∈ free, SheetLayout.containsR fr' r = true := by
  have hfrmem : fr ∈ free := List.getElem?_mem hget
  have hrest : ∀ r ∈ free.eraseIdx i, ∃ fr' ∈ free, SheetLayout.containsR fr' r = true := by
    intro r hr
    exact ⟨r, List.mem_of_mem_eraseIdx hr, containsR_refl r⟩
  have hright : ∀ hw : 0 < rw,
      ∃ fr' ∈ free, SheetLayout.containsR fr' ⟨rx, fr.y, rw, fr.h⟩ = true := by
    intro hw
    refine ⟨fr, hfrmem, ?_⟩
    rw [containsR_true_iff]
    simp only
    omega
  have htop : ∀ hh : 0 < bh,
      ∃ fr' ∈ free, SheetLayout.containsR fr' ⟨fr.x, by_, fr.w, bh⟩ = true := by
    intro hh
    refine ⟨fr, hfrmem, ?_⟩
    rw [containsR_true_iff]
    simp only
    omega
  intro r hr
  by_cases h2 : 0 < bh
  · rw [if_pos h2] at hr
    rcases List.mem_append.mp hr with hr' | hr'
    · by_cases h1 : 0 < rw
      · rw [if_pos h1] at hr'
        rcases List.mem_append.mp hr' with hr'' | hr''
        · exact hrest r hr''
        · rw [List.mem_singleton] at hr''
          subst hr''
          exact hright h1
      · rw [if_neg h1] at hr'
        exact hrest r hr'
    · rw [List.mem_singleton] at hr'
      subst hr'
      exact htop h2
  · rw [if_neg h2] at hr
    by_cases h1 : 0 < rw
    · rw [if_pos h1] at hr
      rcases List.mem_append.mp hr with hr'' | hr''
      · exact hrest r hr''
      · rw [List.mem_singleton] at hr''
        subst hr''
        exact hright h1
    · rw [if_neg h1] at hr
      exact hrest r hr

/-- `_place_and_split` preserves the sheet invariant when fed a sound
candidate of a positive piece. -/
theorem place_and_split_inv {sh : SheetLayout} {p : Piece} {c : Cand}
    (hp : 0 < p.w ∧ 0 < p.h) (hOK : CandOK sh p c) (hinv : SheetInv sh) :
    SheetInv (sh.place_and_split c.i p c.rot c.x c.y c.pw c.ph) := by
  obtain ⟨fr, hget, hrot, hx, hy, hpw, hph, hle1, hle2⟩ := hOK
  obtain ⟨hB, hD, hPW, hPos⟩ := hinv
  have hfrmem : fr ∈ sh.free_rects := List.getElem?_mem hget
  have hgetD : sh.free_rects.getD c.i ⟨0, 0, 0, 0⟩ = fr := by
    rw [List.getD_eq_getElem?_getD, hget]
    rfl
  have hdims : 0 < c.pw ∧ 0 < c.ph := by
    rw [hpw, hph]
    exact orientedDims_pos hp c.rot
  have hnp := width_orient p c.x c.y c.rot
  have hnpw : (PlacedPiece.mk p c.x c.y c.rot).width = c.pw := by rw [hnp.1, hpw]
  have hnph : (PlacedPiece.mk p c.x c.y c.rot).height = c.ph := by rw [hnp.2, hph]
  have hU : effRect (PlacedPiece.mk p c.x c.y c.rot) = ⟨c.x, c.y, c.pw, c.ph⟩ := by
    simp [effRect, hnpw, hnph]
  have hUc : SheetLayout.containsR fr ⟨c.x, c.y, c.pw, c.ph⟩ = true := by
    rw [containsR_true_iff]
    simp only
    omega
  have hUold : ∀ q ∈ sh.placed,
      SheetLayout.intersects ⟨c.x, c.y, c.pw, c.ph⟩ (effRect q) = false := by
    intro q hq
    exact intersects_of_containsR hUc (hD fr hfrmem q hq)
  unfold SheetLayout.place_and_split
  rw [hgetD]
  have hsplit := remnants_sound hget (c.x + c.pw + (if c.x + c.pw < fr.x + fr.w then sh.kerf else 0))
    ((fr.x + fr.w) - (c.x + c.pw + (if c.x + c.pw < fr.x + fr.w then sh.kerf else 0)))
    (c.y + c.ph + (if c.y + c.ph < fr.y + fr.h then sh.kerf else 0))
    ((fr.y + fr.h) - (c.y + c.ph + (if c.y + c.ph < fr.y + fr.h then sh.kerf else 0)))
    (by omega) rfl (by omega) rfl
  -- the post-prune, post-merge property of every free rect
  have hkeep : ∀ r ∈ merge_free_rects (prune_free_rects_with
      (if 0 < (fr.y + fr.h) - (c.y + c.ph + (if c.y + c.ph < fr.y + fr.h then sh.kerf else 0)) then
        (if 0 < (fr.x + fr.w) - (c.x + c.pw + (if c.x + c.pw < fr.x + fr.w then sh.kerf else 0)) then
          sh.free_rects.eraseIdx c.i ++
            [⟨c.x + c.pw + (if c.x + c.pw < fr.x + fr.w then sh.kerf else 0), fr.y,
              (fr.x + fr.w) - (c.x + c.pw + (if c.x + c.pw < fr.x + fr.w then sh.kerf else 0)), fr.h⟩]
         else sh.free_rects.eraseIdx c.i) ++
          [⟨fr.x, c.y + c.ph + (if c.y + c.ph < fr.y + fr.h then sh.kerf else 0), fr.w,
            (fr.y + fr.h) - (c.y + c.ph + (if c.y + c.ph < fr.y + fr.h then sh.kerf else 0))⟩]
       else
        (if 0 < (fr.x + fr.w) - (c.x + c.pw + (if c.x + c.pw < fr.x + fr.w then sh.kerf else 0)) then
          sh.free_rects.eraseIdx c.i ++
            [⟨c.x + c.pw + (if c.x + c.pw < fr.x + fr.w then sh.kerf else 0), fr.y,
              (fr.x + fr.w) - (c.x + c.pw + (if c.x + c.pw < fr.x + fr.w then sh.kerf else 0)), fr.h⟩]
         else sh.free_rects.eraseIdx c.i))
      ⟨c.x, c.y, c.pw, c.ph⟩),
      inBounds sh.sheet_w sh.sheet_h r ∧
        (∀ q ∈ sh.placed ++ [PlacedPiece.mk p c.x c.y c.rot],
          SheetLayout.intersects r (effRect q) = false) := by
    apply merge_free_rects_pred
    · intro a b m hmerge ha hb
      refine ⟨mergeTwo_inBounds hmerge ha.1 hb.1, ?_⟩
      intro q hq
      refine mergeTwo_no_hit ?_ hmerge (ha.2 q hq) (hb.2 q hq)
      rcases List.mem_append.mp hq with hq' | hq'
      · have := hPos q hq'
        simpa [effRect] using this
      · rw [List.mem_singleton] at hq'
        subst hq'
        simp only [effRect, hnpw, hnph]
        exact hdims
    · intro r hr
      obtain ⟨⟨r2, hr2, hcont⟩, hdisj⟩ := prune_sound r hr
      obtain ⟨fr', hfr', hcont'⟩ := hsplit r2 hr2
      have hcr : SheetLayout.containsR fr' r = true := containsR_trans hcont' hcont
      refine ⟨inBounds_of_containsR hcr (hB fr' hfr'), ?_⟩
      intro q hq
      rcases List.mem_append.mp hq with hq' | hq'
      · exact intersects_of_containsR hcr (hD fr' hfr' q hq')
      · rw [List.mem_singleton] at hq'
        subst hq'
        rw [hU]
        exact hdisj
  refine ⟨?_, ?_, ?_, ?_⟩
  · intro r hr
    exact (hkeep r hr).1
  · intro r hr q hq
    exact (hkeep r hr).2 q hq
  · rw [List.pairwise_append]
    refine ⟨hPW, List.pairwise_singleton _ _, ?_⟩
    intro a ha b hb
    rw [List.mem_singleton] at hb
    subst hb
    rw [← intersects_comm, hU]
    exact hUold a ha
  · intro q hq
    rcases List.mem_append.mp hq with hq' | hq'
    · exact hPos q hq'
    · rw [List.mem_singleton] at hq'
      subst hq'
      rw [hnpw, hnph]
      exact hdims

/-- `try_place_piece` preserves the sheet invariant. -/
theorem try_place_inv {sh : SheetLayout} {p : Piece}
    (hp : 0 < p.w ∧ 0 < p.h) (hinv : SheetInv sh) :
    SheetInv (sh.try_place_piece p).2 := by
  rcases try_place_cases sh p with hf | ⟨c, hOK, hs⟩
  · rw [hf]
    exact hinv
  · rw [hs]
    exact place_and_split_inv hp hOK hinv

/-! ### Permutation facts for sorting and shuffling -/

theorem insertBefore_perm (before : α → α → Bool) (p : α) :
    ∀ l : List α, (insertBefore before p l).Perm (p :: l)
  | [] => List.Perm.refl _
  | q :: qs => by
    unfold insertBefore
    split
    · exact List.Perm.refl _
    · exact ((insertBefore_perm before p qs).cons q).trans (List.Perm.swap _ _ _)

theorem stableSort_perm (before : α → α → Bool) :
    ∀ l : List α, (stableSort before l).Perm l
  | [] => List.Perm.refl _
  | p :: ps =>
    (insertBefore_perm before p (stableSort before ps)).trans
      ((stableSort_perm before ps).cons p)

theorem takeWhile_append_drop_self (f : α → Bool) :
    ∀ l : List α, l.takeWhile f ++ l.drop (l.takeWhile f).length = l
  | [] => rfl
  | a :: l => by
    by_cases hf : f a = true
    · simp only [List.takeWhile_cons, hf, if_true, List.length_cons,
        List.drop_succ_cons, List.cons_append]
      rw [takeWhile_append_drop_self f l]
    · simp only [List.takeWhile_cons, hf]
      simp

theorem shuffle_chunksF_perm {σ : Shuffle} (hσ : IsShuffle σ) :
    ∀ (fuel k : Nat) (l : List Piece), l.length ≤ fuel →
      ((shuffle_chunksF σ fuel k l).1).Perm l := by
  intro fuel
  induction fuel with
  | zero =>
    intro k l hle
    rcases l with _ | ⟨p, rest⟩
    · simp [shuffle_chunksF]
    · simp only [List.length_cons] at hle
      omega
  | succ fuel ih =>
    intro k l hle
    rcases l with _ | ⟨p, rest⟩
    · simp [shuffle_chunksF]
    · simp only [List.length_cons, Nat.succ_le_succ_iff] at hle
      simp only [shuffle_chunksF]
      set run := rest.takeWhile (fun q =>
        decide (max (p.w * p.h) (q.w * q.h) - min (p.w * p.h) (q.w * q.h) ≤
          max 1 (p.w * p.h / 50))) with hrun
      have hdrop : (rest.drop run.length).length ≤ fuel := by
        simp only [List.length_drop]
        omega
      refine ((hσ k _).append (ih (k + 1) _ hdrop)).trans ?_
      have : (p :: run) ++ rest.drop run.length = p :: rest := by
        rw [List.cons_append, hrun, takeWhile_append_drop_self]
      rw [this]

theorem shuffle_chunks_perm {σ : Shuffle} (hσ : IsShuffle σ) :
    ∀ (k : Nat) (l : List Piece), ((shuffle_chunks σ k l).1).Perm l :=
  fun k l => shuffle_chunksF_perm hσ l.length k l (Nat.le_refl _)

/-! ### The invariant through the pipeline -/

/-- Positive piece dimensions (guaranteed for flattened input by §6 of the
spec and for harvested pieces by the invariant). -/
def PiecePos (p : Piece) : Prop := 0 < p.w ∧ 0 < p.h

/-- Every sheet of the list satisfies the invariant and has the driver's
dimensions and rotation flag. -/
def GoodSheets (W H : Nat) (rot : Bool) (shs : List SheetLayout) : Prop :=
  ∀ sh ∈ shs, SheetInv sh ∧ sh.sheet_w = W ∧ sh.sheet_h = H ∧
    sh.allow_rotation = rot

theorem try_place_dims (sh : SheetLayout) (p : Piece) :
    (sh.try_place_piece p).2.sheet_w = sh.sheet_w ∧
    (sh.try_place_piece p).2.sheet_h = sh.sheet_h ∧
    (sh.try_place_piece p).2.allow_rotation = sh.allow_rotation := by
  rcases try_place_cases sh p with hf | ⟨c, _, hs⟩
  · rw [hf]
    exact ⟨rfl, rfl, rfl⟩
  · rw [hs]
    exact ⟨rfl, rfl, rfl⟩

theorem foldl_try_place_inv :
    ∀ (l : List Piece) (sh : SheetLayout), (∀ p ∈ l, PiecePos p) → SheetInv sh →
      SheetInv (l.foldl (fun s rp => (s.try_place_piece rp).2) sh) ∧
      (l.foldl (fun s rp => (s.try_place_piece rp).2) sh).sheet_w = sh.sheet_w ∧
      (l.foldl (fun s rp => (s.try_place_piece rp).2) sh).sheet_h = sh.sheet_h
  | [], sh, _, hinv => ⟨hinv, rfl, rfl⟩
  | p :: l, sh, hl, hinv => by
    rw [List.foldl_cons]
    have hrec := foldl_try_place_inv l ((sh.try_place_piece p).2)
      (fun q hq => hl q (List.mem_cons_of_mem _ hq))
      (try_place_inv (hl p (List.mem_cons_self _ _)) hinv)
    have hd := try_place_dims sh p
    exact ⟨hrec.1, hrec.2.1.trans hd.1, hrec.2.2.trans hd.2.1⟩

theorem placeFirstFit_good {W H : Nat} {rot : Bool} {p : Piece} (hp : PiecePos p) :
    ∀ {sheets sheets' : List SheetLayout},
      placeFirstFit p sheets = some sheets' → GoodSheets W H rot sheets →
      GoodSheets W H rot sheets' := by
  intro sheets
  induction sheets with
  | nil => intro s' h _; simp [placeFirstFit] at h
  | cons sh rest ih =>
    intro s' h hg
    simp only [placeFirstFit] at h
    split at h
    · cases h
      intro s hs
      rcases List.mem_cons.mp hs with rfl | hs'
      · have hgs := hg sh (List.mem_cons_self _ _)
        exact ⟨try_place_inv hp hgs.1, (try_place_dims sh p).1.trans hgs.2.1,
          (try_place_dims sh p).2.1.trans hgs.2.2.1,
          (try_place_dims sh p).2.2.trans hgs.2.2.2⟩
      · exact hg s (List.mem_cons_of_mem _ hs')
    · split at h
      · next rest' hrest =>
        cases h
        intro s hs
        rcases List.mem_cons.mp hs with rfl | hs'
        · exact hg s (List.mem_cons_self _ _)
        · exact ih hrest (fun q hq => hg q (List.mem_cons_of_mem _ hq)) s hs'
      · cases h

theorem packOnceAux_good {W H K : Nat} {strat : String} {rot : Bool} :
    ∀ {pieces : List Piece} {acc sheets : List SheetLayout},
      packOnceAux W H K strat rot pieces acc = .ok sheets →
      (∀ p ∈ pieces, PiecePos p) → GoodSheets W H rot acc →
      GoodSheets W H rot sheets := by
  intro pieces
  induction pieces with
  | nil =>
    intro acc sheets h _ hg
    cases h
    exact hg
  | cons p rest ih =>
    intro acc sheets h hl hg
    simp only [packOnceAux] at h
    split at h
    · next acc' hpf =>
      exact ih h (fun q hq => hl q (List.mem_cons_of_mem _ hq))
        (placeFirstFit_good (hl p (List.mem_cons_self _ _)) hpf hg)
    · split at h
      · next hplaced =>
        refine ih h (fun q hq => hl q (List.mem_cons_of_mem _ hq)) ?_
        intro s hs
        rcases List.mem_append.mp hs with hs' | hs'
        · exact hg s hs'
        · rw [List.mem_singleton] at hs'
          subst hs'
          have hfresh := sheetInv_init W H K strat rot
          have hd := try_place_dims (SheetLayout.init W H K strat rot) p
          exact ⟨try_place_inv (hl p (List.mem_cons_self _ _)) hfresh,
            hd.1, hd.2.1, hd.2.2⟩
      · cases h

theorem pack_once_good {pieces : List Piece} {W H K : Nat} {strat : String}
    {rot : Bool} {sheets : List SheetLayout}
    (h : _pack_once pieces W H K strat rot = .ok sheets)
    (hl : ∀ p ∈ pieces, PiecePos p) : GoodSheets W H rot sheets :=
  packOnceAux_good h hl (by intro s hs; simp at hs)

/-- Pieces harvested from an invariant sheet are positive. -/
theorem harvest_pos {sh : SheetLayout} (hinv : SheetInv sh) :
    ∀ q ∈ sh.placed, PiecePos (Piece.mk q.width q.height q.piece.name) := by
  intro q hq
  exact hinv.2.2.2 q hq

theorem rebuild_good {W H : Nat} {sh : SheetLayout} (hinv : SheetInv sh)
    (hW : sh.sheet_w = W) (hH : sh.sheet_h = H) :
    SheetInv (_rebuild_sheet_from_placed sh) ∧
    (_rebuild_sheet_from_placed sh).sheet_w = W ∧
    (_rebuild_sheet_from_placed sh).sheet_h = H := by
  unfold _rebuild_sheet_from_placed
  have hbase : SheetInv (SheetLayout.mk sh.sheet_w sh.sheet_h sh.kerf
      sh.strategy sh.allow_rotation [] [⟨0, 0, sh.sheet_w, sh.sheet_h⟩]) := by
    refine ⟨?_, ?_, ?_, ?_⟩ <;> simp [inBounds]
  have hpos : ∀ p ∈ sortPiecesDesc
      (sh.placed.map (fun p => Piece.mk p.width p.height p.piece.name)),
      PiecePos p := by
    intro p hp
    have := (stableSort_perm _ _).mem_iff.mp hp
    rw [List.mem_map] at this
    obtain ⟨q, hq, rfl⟩ := this
    exact harvest_pos hinv q hq
  have := foldl_try_place_inv _ _ hpos hbase
  exact ⟨this.1, this.2.1.trans hW, this.2.2.trans hH⟩

theorem cloneSheet_good {W H K : Nat} {strat : String} {rot : Bool}
    {sh : SheetLayout} (hinv : SheetInv sh) :
    SheetInv (cloneSheet W H K strat rot sh) ∧
    (cloneSheet W H K strat rot sh).sheet_w = W ∧
    (cloneSheet W H K strat rot sh).sheet_h = H := by
  unfold cloneSheet
  have hpos : ∀ p ∈ stableSort
      (fun a b => decide (b.width * b.height ≤ a.width * a.height)) sh.placed,
      True := fun _ _ => trivial
  have hpos' : ∀ p ∈ (stableSort
      (fun a b => decide (b.width * b.height ≤ a.width * a.height)) sh.placed).map
      (fun pp => Piece.mk pp.width pp.height pp.piece.name), PiecePos p := by
    intro p hp
    rw [List.mem_map] at hp
    obtain ⟨q, hq, rfl⟩ := hp
    exact hinv.2.2.2 q ((stableSort_perm _ _).mem_iff.mp hq)
  have hfold : List.foldl
      (fun c pp => (c.try_place_piece (Piece.mk pp.width pp.height pp.piece.name)).2)
      (SheetLayout.init W H K strat rot)
      (stableSort (fun a b => decide (b.width * b.height ≤ a.width * a.height)) sh.placed) =
    List.foldl (fun c rp => (c.try_place_piece rp).2) (SheetLayout.init W H K strat rot)
      ((stableSort (fun a b => decide (b.width * b.height ≤ a.width * a.height)) sh.placed).map
        (fun pp => Piece.mk pp.width pp.height pp.piece.name)) :=
    (List.foldl_map
      (fun pp : PlacedPiece => Piece.mk pp.width pp.height pp.piece.name)
      (fun c rp => (c.try_place_piece rp).2)
      (stableSort (fun a b => decide (b.width * b.height ≤ a.width * a.height)) sh.placed)
      (SheetLayout.init W H K strat rot)).symm
  rw [hfold]
  have hres := foldl_try_place_inv _ (SheetLayout.init W H K strat rot) hpos'
    (sheetInv_init W H K strat rot)
  exact ⟨hres.1, hres.2.1, hres.2.2⟩

/-- The invariant alone (dimension-free), for the compactor and refiner. -/
def AllInv (shs : List SheetLayout) : Prop := ∀ sh ∈ shs, SheetInv sh

theorem goodSheets_allInv {W H : Nat} {rot : Bool} {shs : List SheetLayout}
    (h : GoodSheets W H rot shs) : AllInv shs :=
  fun sh hs => (h sh hs).1

theorem getD_inv {shs : List SheetLayout} (h : AllInv shs) (i : Nat) :
    SheetInv (shs.getD i dummySheet) := by
  rw [List.getD_eq_getElem?_getD]
  cases hx : shs[i]? with
  | none => exact sheetInv_init 0 0 0 "BSSF" false
  | some sh => exact h sh (List.getElem?_mem hx)

theorem sheetInv_erase {sh : SheetLayout} (h : SheetInv sh) (part : PlacedPiece) :
    SheetInv { sh with placed := sh.placed.erase part } := by
  obtain ⟨hB, hD, hPW, hPos⟩ := h
  refine ⟨hB, ?_, ?_, ?_⟩
  · intro r hr q hq
    exact hD r hr q (List.mem_of_mem_erase hq)
  · exact hPW.sublist (List.erase_sublist part sh.placed)
  · intro q hq
    exact hPos q (List.mem_of_mem_erase hq)

theorem tryReceivers_inv {strat : String} {rot : Bool} {cand : Piece}
    (hc : PiecePos cand) :
    ∀ {rs rs' : List SheetLayout}, tryReceivers strat rot cand rs = some rs' →
      AllInv rs → AllInv rs' := by
  intro rs
  induction rs with
  | nil => intro rs' h _; simp [tryReceivers] at h
  | cons rcv rest ih =>
    intro rs' h hg
    simp only [tryReceivers] at h
    split at h
    · cases h
      intro s hs
      rcases List.mem_cons.mp hs with rfl | hs'
      · exact sheetInv_retag
          (try_place_inv hc (sheetInv_retag (hg rcv (List.mem_cons_self _ _)) strat rot)) _ _
      · exact hg s (List.mem_cons_of_mem _ hs')
    · split at h
      · next rest' hrest =>
        cases h
        intro s hs
        rcases List.mem_cons.mp hs with rfl | hs'
        · exact hg s (List.mem_cons_self _ _)
        · exact ih hrest (fun q hq => hg q (List.mem_cons_of_mem _ hq)) s hs'
      · cases h

theorem tryDonorParts_inv {strat : String} {rot : Bool} :
    ∀ {parts : List PlacedPiece} {receivers receivers' : List SheetLayout}
      {part : PlacedPiece},
      tryDonorParts strat rot parts receivers = some (part, receivers') →
      (∀ q ∈ parts, 0 < q.width ∧ 0 < q.height) → AllInv receivers →
      AllInv receivers' := by
  intro parts
  induction parts with
  | nil => intro _ _ _ h _ _; simp [tryDonorParts] at h
  | cons q qs ih =>
    intro receivers receivers' part h hpos hg
    simp only [tryDonorParts] at h
    split at h
    · next hrecv =>
      cases h
      have hcand : PiecePos (Piece.mk q.width q.height q.piece.name) :=
        hpos q (List.mem_cons_self _ _)
      exact tryReceivers_inv hcand hrecv hg
    · exact ih h (fun r hr => hpos r (List.mem_cons_of_mem _ hr)) hg

theorem afterMove_inv {sheets : List SheetLayout} {si : Nat}
    {part : PlacedPiece} {receivers' : List SheetLayout}
    (hg : AllInv sheets) (hr : AllInv receivers') :
    AllInv (afterMove sheets si part receivers') := by
  simp only [afterMove]
  have hdonor : SheetInv (sheets.getD si dummySheet) := getD_inv hg si
  have hsheets1 : AllInv (receivers' ++ sheets.drop si) := by
    intro s hs
    rcases List.mem_append.mp hs with hs' | hs'
    · exact hr s hs'
    · exact hg s (List.mem_of_mem_drop hs')
  split
  · intro s hs
    rcases List.mem_or_eq_of_mem_set hs with hs' | rfl
    · exact hsheets1 s hs'
    · exact (rebuild_good (sheetInv_erase hdonor part) rfl rfl).1
  · intro s hs
    exact hsheets1 s (List.mem_of_mem_eraseIdx hs)

theorem scanDonors_inv {strat : String} {rot : Bool} :
    ∀ {idxs : List Nat} {sheets : List SheetLayout} {best : Nat × Nat},
      AllInv sheets → AllInv (scanDonors strat rot idxs sheets best).1 := by
  intro idxs
  induction idxs with
  | nil => intro sheets best hg; exact hg
  | cons si rest ih =>
    intro sheets best hg
    simp only [scanDonors]
    have hdonor : SheetInv (sheets.getD si dummySheet) := getD_inv hg si
    have hparts : ∀ q ∈ stableSort
        (fun a b => decide (a.width * a.height ≤ b.width * b.height))
        (sheets.getD si dummySheet).placed, 0 < q.width ∧ 0 < q.height := by
      intro q hq
      exact hdonor.2.2.2 q ((stableSort_perm _ _).mem_iff.mp hq)
    split
    · exact ih hg
    · next part receivers' hmove =>
      have hrcv : AllInv receivers' :=
        tryDonorParts_inv hmove hparts (fun s hs => hg s (List.mem_of_mem_take hs))
      have hafter : AllInv (afterMove sheets si part receivers') :=
        afterMove_inv hg hrcv
      split
      · exact hafter
      · exact ih hafter

theorem compactLoopF_inv {strat : String} {rot : Bool} :
    ∀ (fuel : Nat) (sheets : List SheetLayout), AllInv sheets →
      AllInv (compactLoopF strat rot fuel sheets) := by
  intro fuel
  induction fuel with
  | zero => intro sheets hg; exact hg
  | succ fuel ih =>
    intro sheets hg
    simp only [compactLoopF]
    by_cases hp : (scanDonors strat rot ((List.range sheets.length).drop 1).reverse
        sheets (_score_sheets sheets)).2 = true
    · rw [if_pos hp]
      exact ih _ (scanDonors_inv hg)
    · rw [if_neg hp]
      exact scanDonors_inv hg

theorem compactLoop_inv {strat : String} {rot : Bool} :
    ∀ (sheets : List SheetLayout), AllInv sheets →
      AllInv (compactLoop strat rot sheets) :=
  fun sheets hg => compactLoopF_inv (compactFuel sheets) sheets hg

theorem compactor_inv {sheets : List SheetLayout} {strat : String} {rot : Bool}
    (hg : AllInv sheets) : AllInv (_global_compactor sheets strat rot) :=
  compactLoop_inv sheets hg

theorem packPoolAux_good {W H K : Nat} {strat : String} {rot : Bool} :
    ∀ {pieces : List Piece} {acc sheets : List SheetLayout},
      packPoolAux W H K strat rot pieces acc = some sheets →
      (∀ p ∈ pieces, PiecePos p) → GoodSheets W H rot acc →
      GoodSheets W H rot sheets := by
  intro pieces
  induction pieces with
  | nil =>
    intro acc sheets h _ hg
    cases h
    exact hg
  | cons p rest ih =>
    intro acc sheets h hl hg
    simp only [packPoolAux] at h
    split at h
    · next acc' hpf =>
      exact ih h (fun q hq => hl q (List.mem_cons_of_mem _ hq))
        (placeFirstFit_good (hl p (List.mem_cons_self _ _)) hpf hg)
    · split at h
      · next hplaced =>
        refine ih h (fun q hq => hl q (List.mem_cons_of_mem _ hq)) ?_
        intro s hs
        rcases List.mem_append.mp hs with hs' | hs'
        · exact hg s hs'
        · rw [List.mem_singleton] at hs'
          subst hs'
          have hd := try_place_dims (SheetLayout.init W H K strat rot) p
          exact ⟨try_place_inv (hl p (List.mem_cons_self _ _))
            (sheetInv_init W H K strat rot), hd.1, hd.2.1, hd.2.2⟩
      · cases h

theorem refineVictim_inv {σ : Shuffle} (hσ : IsShuffle σ) {strat : String}
    {rot : Bool} {W H K : Nat} {sheets : List SheetLayout} {vi k : Nat}
    {new_sheets : List SheetLayout}
    (hg : AllInv sheets)
    (h : (refineVictim σ strat rot W H K sheets vi k).1 = some new_sheets) :
    AllInv new_sheets := by
  simp only [refineVictim] at h
  have hvic : SheetInv (sheets.getD vi dummySheet) := getD_inv hg vi
  have hpool : ∀ p ∈ (((sheets.enum.filter (fun jsh => decide (jsh.1 ≠ vi))).map
      (fun jsh => cloneSheet W H K strat rot jsh.2)).map (fun sh2 => sh2.placed.map
        (fun pp => Piece.mk pp.width pp.height pp.piece.name))).flatten
      ++ (sheets.getD vi dummySheet).placed.map
        (fun p => Piece.mk p.width p.height p.piece.name), PiecePos p := by
    intro p hp
    rcases List.mem_append.mp hp with hp' | hp'
    · simp only [List.mem_flatten, List.mem_map] at hp'
      obtain ⟨l, ⟨sh2, hsh2, rfl⟩, hpl⟩ := hp'
      obtain ⟨jsh, hjsh, rfl⟩ := hsh2
      rw [List.mem_map] at hpl
      obtain ⟨pp, hpp, rfl⟩ := hpl
      have hclone : SheetInv (cloneSheet W H K strat rot jsh.2) := by
        rcases List.mem_filter.mp hjsh with ⟨hmem, _⟩
        have : jsh.2 ∈ sheets := by
          rcases jsh with ⟨j, sh⟩
          rw [List.mk_mem_enum_iff_getElem?] at hmem
          exact List.getElem?_mem hmem
        exact (cloneSheet_good (hg _ this)).1
      exact hclone.2.2.2 pp hpp
    · rw [List.mem_map] at hp'
      obtain ⟨q, hq, rfl⟩ := hp'
      exact hvic.2.2.2 q hq
  have hpool2 : ∀ p ∈ (shuffle_chunks σ k (stableSort
      (fun a b => decide (b.w * b.h ≤ a.w * a.h))
      ((((sheets.enum.filter (fun jsh => decide (jsh.1 ≠ vi))).map
        (fun jsh => cloneSheet W H K strat rot jsh.2)).map (fun sh2 => sh2.placed.map
          (fun pp => Piece.mk pp.width pp.height pp.piece.name))).flatten
      ++ (sheets.getD vi dummySheet).placed.map
        (fun p => Piece.mk p.width p.height p.piece.name)))).1, PiecePos p := by
    intro p hp
    have h1 := (shuffle_chunks_perm hσ k _).mem_iff.mp hp
    have h2 := (stableSort_perm _ _).mem_iff.mp h1
    exact hpool p h2
  split at h
  · cases h
  · next ns hns =>
    split at h
    · cases h
      exact goodSheets_allInv (packPoolAux_good hns hpool2 (by intro s hs; simp at hs))
    · cases h

theorem refineVictims_inv {σ : Shuffle} (hσ : IsShuffle σ) {strat : String}
    {rot : Bool} {W H K : Nat} :
    ∀ {vis : List Nat} {sheets : List SheetLayout} {k : Nat},
      AllInv sheets →
      AllInv (refineVictims σ strat rot W H K vis sheets k).1 := by
  intro vis
  induction vis with
  | nil => intro sheets k hg; exact hg
  | cons vi rest ih =>
    intro sheets k hg
    simp only [refineVictims]
    split
    · exact ih hg
    · split
      · next ns k' hns =>
        intro s hs
        exact refineVictim_inv hσ hg (by rw [hns]) s hs
      · exact ih hg

theorem refineRounds_inv {σ : Shuffle} (hσ : IsShuffle σ) {strat : String}
    {rot : Bool} {W H K : Nat} :
    ∀ (r : Nat) {sheets : List SheetLayout} {k : Nat},
      AllInv sheets →
      AllInv (refineRounds σ strat rot W H K r sheets k).1 := by
  intro r
  induction r with
  | zero => intro sheets k hg; exact hg
  | succ n ih =>
    intro sheets k hg
    simp only [refineRounds]
    split
    · exact hg
    · split
      · next ns k' hns =>
        have : AllInv ns := by
          have := @refineVictims_inv σ hσ strat rot W H K ((stableSort
            (fun a b => decide (sheet_waste (sheets.getD b dummySheet) ≤
                                sheet_waste (sheets.getD a dummySheet)))
            (List.range sheets.length)).take 2) sheets k hg
          rw [hns] at this
          exact this
        exact ih this
      · next ns k' hns =>
        have := @refineVictims_inv σ hσ strat rot W H K ((stableSort
          (fun a b => decide (sheet_waste (sheets.getD b dummySheet) ≤
                              sheet_waste (sheets.getD a dummySheet)))
          (List.range sheets.length)).take 2) sheets k hg
        rw [hns] at this
        exact this

theorem refine_heavy_inv {σ : Shuffle} (hσ : IsShuffle σ) {k : Nat}
    {sheets : List SheetLayout} {strat : String} {rot : Bool} {W H K r : Nat}
    (hg : AllInv sheets) :
    AllInv (_global_refine_heavy σ k sheets strat rot W H K r).1 :=
  refineRounds_inv hσ r hg

theorem flatten_pos {piece_list : List (Nat × Nat × Nat)}
    (hpl : ∀ t ∈ piece_list, 0 < t.1 ∧ 0 < t.2.1) :
    ∀ p ∈ _flatten_piece_list piece_list, PiecePos p := by
  unfold _flatten_piece_list
  suffices h : ∀ (l : List (Nat × Nat × Nat)) (c : Nat),
      (∀ t ∈ l, 0 < t.1 ∧ 0 < t.2.1) → ∀ p ∈ flattenAux l c, PiecePos p by
    exact h piece_list 1 hpl
  intro l
  induction l with
  | nil => intro c _ p hp; simp [flattenAux] at hp
  | cons t rest ih =>
    intro c hl p hp
    rcases t with ⟨w, h, q⟩
    simp only [flattenAux, List.mem_append, List.mem_map, List.mem_range] at hp
    rcases hp with ⟨j, _, rfl⟩ | hp'
    · exact hl (w, h, q) (List.mem_cons_self _ _)
    · exact ih (c + q) (fun u hu => hl u (List.mem_cons_of_mem _ hu)) p hp'

theorem driverLoop_inv {σ : Shuffle} (hσ : IsShuffle σ) {W H K : Nat}
    {strat : String} {rot : Bool} {base : List Piece}
    (hbase : ∀ p ∈ base, PiecePos p) :
    ∀ (n : Nat) (k : Nat) (best : Option (List SheetLayout × (Nat × Nat)))
      {sheets : List SheetLayout},
      (∀ b, best = some b → AllInv b.1) →
      driverLoop σ W H K strat rot base n k best = .ok (some sheets) →
      AllInv sheets := by
  intro n
  induction n with
  | zero =>
    intro k best sheets hbest h
    simp only [driverLoop] at h
    rcases best with _ | b
    · exact absurd h (by simp)
    · simp only [Option.map] at h
      cases h
      exact hbest b rfl
  | succ m ih =>
    intro k best sheets hbest h
    simp only [driverLoop] at h
    split at h
    · cases h
    · next packed hpack =>
      have hpos : ∀ p ∈ (shuffle_chunks σ k (sortPiecesDesc base)).1, PiecePos p := by
        intro p hp
        exact hbase p ((stableSort_perm _ _).mem_iff.mp
          ((shuffle_chunks_perm hσ _ _).mem_iff.mp hp))
      have hpacked : AllInv packed :=
        goodSheets_allInv (packOnceAux_good hpack hpos (by intro s hs; simp at hs))
      have hrefined : AllInv (_global_refine_heavy σ
          (shuffle_chunks σ k (sortPiecesDesc base)).2
          (_global_compactor packed strat rot) strat rot W H K 3).1 :=
        refine_heavy_inv hσ (compactor_inv hpacked)
      refine ih _ _ ?_ h
      intro b hb
      split at hb
      · cases hb
        exact hrefined
      · rename_i b0
        split at hb
        · cases hb
          exact hrefined
        · cases hb
          exact hbest _ rfl

/-- Sheets returned by the driver all satisfy the geometric invariant. -/
theorem optimize_inv {σ : Shuffle} (hσ : IsShuffle σ) {k W H K : Nat}
    {piece_list : List (Nat × Nat × Nat)} {strategy : String}
    {allow_rotation : Bool} {attempts : Nat} {sheets : List SheetLayout}
    (hpl : ∀ t ∈ piece_list, 0 < t.1 ∧ 0 < t.2.1)
    (h : optimize_cut_multi_start σ k W H K piece_list strategy allow_rotation
      attempts = .ok sheets) :
    AllInv sheets := by
  simp only [optimize_cut_multi_start] at h
  split at h
  · cases h
  · cases h
    intro s hs
    simp at hs
  · next shs hdrv =>
    cases h
    exact driverLoop_inv hσ (flatten_pos hpl) attempts k none (by intro b hb; cases hb) hdrv

/-! ### Oversized parts: the packer raises and the driver propagates -/

/-- The claim's "fits into an empty `W × H` sheet in some permitted
orientation". -/
def fitsEmpty (W H : Nat) (rot : Bool) (p : Piece) : Prop :=
  ∃ r ∈ orientations rot, (orientedDims p r).1 ≤ W ∧ (orientedDims p r).2 ≤ H

instance (W H : Nat) (rot : Bool) (p : Piece) : Decidable (fitsEmpty W H rot p) := by
  unfold fitsEmpty
  infer_instance

/-- A piece too large for the sheet dimensions is refused by every sheet
satisfying the invariant with those dimensions. -/
theorem try_place_oversized {sh : SheetLayout} {p : Piece} {W H : Nat}
    (hinv : SheetInv sh) (hW : sh.sheet_w = W) (hH : sh.sheet_h = H)
    (hbig : ¬ fitsEmpty W H sh.allow_rotation p) :
    sh.try_place_piece p = (false, sh) := by
  rw [fitsEmpty] at hbig
  push_neg at hbig
  have hfits : ∀ (c : Cand), CandOK sh p c → False := by
    intro c hc
    obtain ⟨fr, hget, hrot, _, _, hpw, hph, hle1, hle2⟩ := hc
    have hb := hinv.1 fr (List.getElem?_mem hget)
    rw [inBounds, hW, hH] at hb
    have := hbig c.rot hrot
    omega
  have hex : exact_cands sh p = [] := by
    rw [List.eq_nil_iff_forall_not_mem]
    intro c hc
    exact hfits c (exact_cands_sound hc)
  have hsc : scored_cands sh p = [] := by
    rw [List.eq_nil_iff_forall_not_mem]
    intro c hc
    exact hfits c (scored_cands_sound hc)
  unfold SheetLayout.try_place_piece
  rw [hex, hsc]
  rfl

theorem placeFirstFit_oversized {p : Piece} :
    ∀ {sheets : List SheetLayout},
      (∀ sh ∈ sheets, sh.try_place_piece p = (false, sh)) →
      placeFirstFit p sheets = none := by
  intro sheets
  induction sheets with
  | nil => intro _; rfl
  | cons sh rest ih =>
    intro hall
    simp only [placeFirstFit]
    rw [hall sh (List.mem_cons_self _ _)]
    simp only [if_neg]
    rw [ih (fun q hq => hall q (List.mem_cons_of_mem _ hq))]
    simp

theorem packOnceAux_oversized {W H K : Nat} {strat : String} {rot : Bool} :
    ∀ {pieces : List Piece} {acc : List SheetLayout},
      GoodSheets W H rot acc → (∀ p ∈ pieces, PiecePos p) →
      (∃ p ∈ pieces, ¬ fitsEmpty W H rot p) →
      ∃ e, packOnceAux W H K strat rot pieces acc = .error e := by
  intro pieces
  induction pieces with
  | nil => intro _ _ _ hex; simp at hex
  | cons p rest ih =>
    intro acc hg hpos hex
    by_cases hp : fitsEmpty W H rot p
    · have hex' : ∃ q ∈ rest, ¬ fitsEmpty W H rot q := by
        rcases hex with ⟨q, hq, hqn⟩
        rcases List.mem_cons.mp hq with rfl | hq'
        · exact absurd hp hqn
        · exact ⟨q, hq', hqn⟩
      simp only [packOnceAux]
      split
      · next acc' hpf =>
        exact ih (placeFirstFit_good (hpos p (List.mem_cons_self _ _)) hpf hg)
          (fun q hq => hpos q (List.mem_cons_of_mem _ hq)) hex'
      · split
        · next hplaced =>
          refine ih ?_ (fun q hq => hpos q (List.mem_cons_of_mem _ hq)) hex'
          intro s hs
          rcases List.mem_append.mp hs with hs' | hs'
          · exact hg s hs'
          · rw [List.mem_singleton] at hs'
            subst hs'
            have hd := try_place_dims (SheetLayout.init W H K strat rot) p
            exact ⟨try_place_inv (hpos p (List.mem_cons_self _ _))
              (sheetInv_init W H K strat rot), hd.1, hd.2.1, hd.2.2⟩
        · exact ⟨_, rfl⟩
    · -- the head piece itself is oversized: every sheet refuses it, the
      -- fresh sheet refuses it, and the ValueError is raised
      have hall : ∀ sh ∈ acc, sh.try_place_piece p = (false, sh) := by
        intro sh hs
        exact try_place_oversized (hg sh hs).1 (hg sh hs).2.1 (hg sh hs).2.2.1
          (by rw [(hg sh hs).2.2.2]; exact hp)
      simp only [packOnceAux]
      rw [placeFirstFit_oversized hall]
      have hfresh : (SheetLayout.init W H K strat rot).try_place_piece p =
          (false, SheetLayout.init W H K strat rot) :=
        try_place_oversized (sheetInv_init W H K strat rot) rfl rfl hp
      rw [hfresh]
      exact ⟨_, rfl⟩

theorem pack_once_oversized {pieces : List Piece} {W H K : Nat}
    {strat : String} {rot : Bool}
    (hpos : ∀ p ∈ pieces, PiecePos p)
    (hover : ∃ p ∈ pieces, ¬ fitsEmpty W H rot p) :
    ∃ e, _pack_once pieces W H K strat rot = .error e :=
  packOnceAux_oversized (by intro s hs; simp at hs) hpos hover

/-- When some flattened part does not fit an empty sheet in any permitted
orientation, the driver's first attempt raises inside `_pack_once` and the
`ValueError` escapes `optimize_cut_multi_start` (there is no handler). -/
theorem optimize_oversized {σ : Shuffle} (hσ : IsShuffle σ) {k W H K : Nat}
    {piece_list : List (Nat × Nat × Nat)} {strategy : String} {rot : Bool}
    {attempts : Nat} (hatt : 0 < attempts)
    (hpl : ∀ t ∈ piece_list, 0 < t.1 ∧ 0 < t.2.1)
    (hover : ∃ p ∈ _flatten_piece_list piece_list, ¬ fitsEmpty W H rot p) :
    ∃ e, optimize_cut_multi_start σ k W H K piece_list strategy rot attempts
      = .error e := by
  obtain ⟨n, rfl⟩ : ∃ n, attempts = n + 1 := ⟨attempts - 1, by omega⟩
  have hperm : ((shuffle_chunks σ k
      (sortPiecesDesc (_flatten_piece_list piece_list))).1).Perm
      (_flatten_piece_list piece_list) :=
    (shuffle_chunks_perm hσ _ _).trans (stableSort_perm _ _)
  have hover' : ∃ p ∈ (shuffle_chunks σ k
      (sortPiecesDesc (_flatten_piece_list piece_list))).1,
      ¬ fitsEmpty W H rot p := by
    rcases hover with ⟨p, hp, hn⟩
    exact ⟨p, hperm.mem_iff.mpr hp, hn⟩
  have hpos' : ∀ p ∈ (shuffle_chunks σ k
      (sortPiecesDesc (_flatten_piece_list piece_list))).1, PiecePos p := by
    intro p hp
    exact flatten_pos hpl p (hperm.mem_iff.mp hp)
  obtain ⟨e, he⟩ := @pack_once_oversized
    (shuffle_chunks σ k (sortPiecesDesc (_flatten_piece_list piece_list))).1
    W H K strategy rot hpos' hover'
  refine ⟨e, ?_⟩
  simp only [optimize_cut_multi_start, driverLoop]
  rw [he]

/-! ### Conservation for the first-fit packer -/

/-- All pieces placed across a sheet list, in sheet-then-placement order. -/
def allPieces (shs : List SheetLayout) : List Piece :=
  (shs.map (fun sh => sh.placed.map (fun q => q.piece))).flatten

theorem allPieces_append (a b : List SheetLayout) :
    allPieces (a ++ b) = allPieces a ++ allPieces b := by
  simp [allPieces]

theorem placeFirstFit_pieces {p : Piece} :
    ∀ {sheets sheets' : List SheetLayout},
      placeFirstFit p sheets = some sheets' →
      (allPieces sheets').Perm (p :: allPieces sheets) := by
  intro sheets
  induction sheets with
  | nil => intro s' h; simp [placeFirstFit] at h
  | cons sh rest ih =>
    intro s' h
    simp only [placeFirstFit] at h
    split at h
    · next hsucc =>
      cases h
      obtain ⟨x, y, rot, hplaced⟩ := try_place_success_placed hsucc
      have hL : allPieces ((sh.try_place_piece p).2 :: rest) =
          (sh.placed.map (fun q => q.piece) ++ [p]) ++ allPieces rest := by
        simp [allPieces, hplaced]
      have hR : allPieces (sh :: rest) =
          sh.placed.map (fun q => q.piece) ++ allPieces rest := by
        simp [allPieces]
      rw [hL, hR, List.append_assoc]
      exact List.perm_middle
    · split at h
      · next rest' hrest =>
        cases h
        have hL : allPieces (sh :: rest') =
            sh.placed.map (fun q => q.piece) ++ allPieces rest' := by
          simp [allPieces]
        have hR : allPieces (sh :: rest) =
            sh.placed.map (fun q => q.piece) ++ allPieces rest := by
          simp [allPieces]
        rw [hL, hR]
        exact ((ih hrest).append_left _).trans List.perm_middle
      · exact absurd h (by simp)

theorem packOnceAux_pieces {W H K : Nat} {strat : String} {rot : Bool} :
    ∀ {pieces : List Piece} {acc sheets : List SheetLayout},
      packOnceAux W H K strat rot pieces acc = .ok sheets →
      (allPieces sheets).Perm (pieces ++ allPieces acc) := by
  intro pieces
  induction pieces with
  | nil =>
    intro acc sheets h
    cases h
    simp
  | cons p rest ih =>
    intro acc sheets h
    simp only [packOnceAux] at h
    split at h
    · next acc' hpf =>
      have step1 : (allPieces sheets).Perm (rest ++ allPieces acc') := ih h
      have step2 : (rest ++ allPieces acc').Perm (rest ++ (p :: allPieces acc)) :=
        (placeFirstFit_pieces hpf).append_left rest
      have step3 : (rest ++ (p :: allPieces acc)).Perm ((p :: rest) ++ allPieces acc) :=
        List.perm_middle
      exact (step1.trans step2).trans step3
    · split at h
      · next hsucc =>
        have hfresh : allPieces
            (acc ++ [((SheetLayout.init W H K strat rot).try_place_piece p).2]) =
            allPieces acc ++ [p] := by
          obtain ⟨x, y, rt, hplaced⟩ := try_place_success_placed hsucc
          rw [allPieces_append]
          have hone : ((SheetLayout.init W H K strat rot).try_place_piece p).2.placed.map
              (fun q => q.piece) = [p] := by
            rw [hplaced]
            simp [SheetLayout.init]
          simp [allPieces, hone]
        have step1 := ih h
        rw [hfresh] at step1
        have step2 : (rest ++ (allPieces acc ++ [p])).Perm
            (rest ++ (p :: allPieces acc)) :=
          (List.perm_append_singleton p (allPieces acc)).append_left rest
        have step3 : (rest ++ (p :: allPieces acc)).Perm
            ((p :: rest) ++ allPieces acc) := List.perm_middle
        exact (step1.trans step2).trans step3
      · exact absurd h (by simp)

/-- `_pack_once` conserves parts exactly: the pieces attached to the
returned placements are a permutation of the input pieces. -/
theorem pack_once_conserves {pieces : List Piece} {W H K : Nat}
    {strat : String} {rot : Bool} {sheets : List SheetLayout}
    (h : _pack_once pieces W H K strat rot = .ok sheets) :
    (allPieces sheets).Perm pieces := by
  have := packOnceAux_pieces h
  simpa [allPieces] using this

/-! ### Exact-fit pass: completeness of the candidate enumeration -/

/-- Any (free rect, orientation) pair satisfying the exact-fit condition
contributes its candidate to `exact_cands`. -/
theorem exact_cands_complete {sh : SheetLayout} {p : Piece} {i : Nat}
    {fr : FreeRect} {rot : Bool}
    (hget : sh.free_rects[i]? = some fr)
    (hrot : rot ∈ orientations sh.allow_rotation)
    (hcond : (orientedDims p rot).1 ≤ fr.w ∧ (orientedDims p rot).2 ≤ fr.h ∧
      ((orientedDims p rot).1 = fr.w ∨ (orientedDims p rot).2 = fr.h)) :
    ({ key := [fr.y, fr.x, i, rotN rot, fr.x, fr.y,
        (orientedDims p rot).1, (orientedDims p rot).2],
       i := i, rot := rot, x := fr.x, y := fr.y,
       pw := (orientedDims p rot).1, ph := (orientedDims p rot).2 } : Cand)
      ∈ exact_cands sh p := by
  unfold exact_cands
  rw [List.mem_flatten]
  refine ⟨(orientations sh.allow_rotation).filterMap (fun rot' =>
    let pw := (orientedDims p rot').1
    let ph := (orientedDims p rot').2
    if pw ≤ fr.w ∧ ph ≤ fr.h ∧ (pw = fr.w ∨ ph = fr.h) then
      some { key := [fr.y, fr.x, i, rotN rot', fr.x, fr.y, pw, ph],
             i := i, rot := rot', x := fr.x, y := fr.y, pw := pw, ph := ph }
    else none), ?_, ?_⟩
  · rw [List.mem_map]
    exact ⟨(i, fr), List.mk_mem_enum_iff_getElem?.mpr hget, rfl⟩
  · rw [List.mem_filterMap]
    exact ⟨rot, hrot, by rw [if_pos hcond]⟩

/-- The exact-fit pass of `try_place_piece`: if any exact-fit candidate
exists, the piece is placed via the lexicographically-least such candidate
and the scored pass is skipped. -/
theorem try_place_exact_fit {sh : SheetLayout} {p : Piece}
    (hex : ∃ (i : Nat) (fr : FreeRect) (rot : Bool), sh.free_rects[i]? = some fr ∧
      rot ∈ orientations sh.allow_rotation ∧
      (orientedDims p rot).1 ≤ fr.w ∧ (orientedDims p rot).2 ≤ fr.h ∧
      ((orientedDims p rot).1 = fr.w ∨ (orientedDims p rot).2 = fr.h)) :
    ∃ c ∈ exact_cands sh p,
      (∀ d ∈ exact_cands sh p, keyLt d.key c.key = false) ∧
      sh.try_place_piece p =
        (true, sh.place_and_split c.i p c.rot c.x c.y c.pw c.ph) := by
  have hne : exact_cands sh p ≠ [] := by
    obtain ⟨i, fr, rot, hget, hrot, h1, h2, h3⟩ := hex
    intro hnil
    have := exact_cands_complete hget hrot ⟨h1, h2, h3⟩
    rw [hnil] at this
    cases this
  rcases pickBest_spec (exact_cands sh p) with ⟨hnil, _⟩ | ⟨c, hc, hmem, hmin⟩
  · exact absurd hnil hne
  · refine ⟨c, hmem, hmin, ?_⟩
    unfold SheetLayout.try_place_piece
    rw [hc]

/-! ### The `try_place_piece` contract -/

/-- On failure the sheet is completely unchanged; on success the placed
list gains exactly one entry (the offered piece, appended at the end). -/
theorem try_place_contract (sh : SheetLayout) (p : Piece) :
    ((sh.try_place_piece p).1 = false → (sh.try_place_piece p).2 = sh) ∧
    ((sh.try_place_piece p).1 = true →
      ∃ x y rot, (sh.try_place_piece p).2.placed = sh.placed ++ [⟨p, x, y, rot⟩]) := by
  rcases try_place_cases sh p with hf | ⟨c, _, hs⟩
  · rw [hf]
    exact ⟨fun _ => rfl, fun h => by cases h⟩
  · rw [hs]
    constructor
    · intro h
      exact absurd h (by simp)
    · intro _
      exact ⟨c.x, c.y, c.rot, rfl⟩

/-! ### The containment filter on duplicate free rects -/

/-- A value counted at least twice is held at a second index. -/
theorem count_two_other_index {r : FreeRect} :
    ∀ {l : List FreeRect}, 2 ≤ l.count r → ∀ {i : Nat}, l[i]? = some r →
      ∃ j, j ≠ i ∧ l[j]? = some r := by
  intro l
  induction l with
  | nil => intro h; simp at h
  | cons x xs ih =>
    intro h i hi
    cases i with
    | zero =>
      rw [List.getElem?_cons_zero] at hi
      injection hi with hi
      subst hi
      have hr : x ∈ xs := by
        rw [List.count_cons_self] at h
        exact List.one_le_count_iff.mp (by omega)
      obtain ⟨j, hj⟩ := List.mem_iff_getElem?.mp hr
      exact ⟨j + 1, by omega, by rwa [List.getElem?_cons_succ]⟩
    | succ n =>
      rw [List.getElem?_cons_succ] at hi
      by_cases hx : x = r
      · exact ⟨0, by omega, by rw [List.getElem?_cons_zero, hx]⟩
      · have h2 : 2 ≤ xs.count r := by
          rwa [List.count_cons_of_ne (fun hh => hx hh.symm)] at h
        obtain ⟨j, hji, hj⟩ := ih h2 hi
        exact ⟨j + 1, by omega, by rwa [List.getElem?_cons_succ]⟩

/-- A rect occurring at two different indices is removed by the
containment filter (each copy non-strictly contains the other). -/
theorem containment_filter_dup {l : List FreeRect} {r : FreeRect}
    (h : 2 ≤ l.count r) : r ∉ containment_filter l := by
  intro hmem
  unfold containment_filter at hmem
  simp only [List.mem_map, List.mem_filter] at hmem
  obtain ⟨⟨i, a⟩, ⟨hmemi, hkeep⟩, rfl⟩ := hmem
  rw [List.mk_mem_enum_iff_getElem?] at hmemi
  obtain ⟨j, hji, hj⟩ := count_two_other_index h hmemi
  rw [Bool.not_eq_true'] at hkeep
  rw [List.any_eq_false] at hkeep
  have hja := hkeep (j, a) (List.mk_mem_enum_iff_getElem?.mpr hj)
  simp only [containsR_refl, Bool.and_true, decide_eq_true_eq] at hja
  exact hja (Ne.symm hji)

/-! ### The heavy refiner: claim C3's joint-dissolve reading vs the code -/

/-- Modelled from the claim's words (spec §4.4 as read by C3): each round
selects the two highest-scrap sheets as victims *together*, builds a single
pool from clone re-packs of every non-victim sheet plus the parts of both
victims directly, re-packs that pool as a whole, and compares scores once. -/
def refineRoundsJoint (σ : Shuffle) (strat : String) (rot : Bool) (W H K : Nat) :
    Nat → List SheetLayout → Nat → List SheetLayout × Nat
  | 0, sheets, k => (sheets, k)
  | r + 1, sheets, k =>
    if sheets.length ≤ 1 then (sheets, k)
    else
      let order := stableSort
        (fun a b => decide (sheet_waste (sheets.getD b dummySheet) ≤
                            sheet_waste (sheets.getD a dummySheet)))
        (List.range sheets.length)
      let vs := order.take 2
      let others := ((sheets.enum.filter (fun jsh => decide (jsh.1 ∉ vs))).map
        (fun jsh => cloneSheet W H K strat rot jsh.2))
      let pool := (others.map (fun sh2 => sh2.placed.map
          (fun pp => Piece.mk pp.width pp.height pp.piece.name))).flatten
        ++ (vs.map (fun vi => (sheets.getD vi dummySheet).placed.map
          (fun p => Piece.mk p.width p.height p.piece.name))).flatten
      let pool := stableSort (fun a b => decide (b.w * b.h ≤ a.w * a.h)) pool
      let pk := shuffle_chunks σ k pool
      match packPoolAux W H K strat rot pk.1 [] with
      | none => (sheets, pk.2)
      | some new_sheets =>
        if scoreLt (_score_sheets new_sheets) (_score_sheets sheets) then
          refineRoundsJoint σ strat rot W H K r new_sheets pk.2
        else (sheets, pk.2)

theorem take_two_of_length {l : List Nat} (h : 2 ≤ l.length) :
    l.take 2 = [l.getD 0 0, l.getD 1 0] := by
  match l, h with
  | x :: y :: rest, _ => rfl

theorem stableSort_range_lt {n : Nat}
    {before : Nat → Nat → Bool} {v : Nat}
    (hv : v ∈ stableSort before (List.range n)) : v < n := by
  have := (stableSort_perm before (List.range n)).mem_iff.mp hv
  exact List.mem_range.mp this

theorem getD_mem {l : List Nat} {i : Nat} (h : i < l.length) :
    l.getD i 0 ∈ l := by
  rw [List.getD_eq_getElem?_getD, List.getElem?_eq_getElem h]
  exact List.getElem_mem h

/-- The code's refiner round, characterized: with more than one sheet it
tries the two highest-scrap victims *one at a time* (first `order[0]`, then
`order[1]`), each with its own pool of clone re-packs of every other sheet
plus that single victim's parts, accepting the first strict improvement and
stopping the rounds when neither is accepted. -/
theorem refineRounds_one_at_a_time (σ : Shuffle) (strat : String) (rot : Bool)
    (W H K r : Nat) (sheets : List SheetLayout) (k : Nat)
    (h : 1 < sheets.length) :
    refineRounds σ strat rot W H K (r + 1) sheets k =
      (let order := stableSort
        (fun a b => decide (sheet_waste (sheets.getD b dummySheet) ≤
                            sheet_waste (sheets.getD a dummySheet)))
        (List.range sheets.length)
       match refineVictim σ strat rot W H K sheets (order.getD 0 0) k with
       | (some ns, k1) => refineRounds σ strat rot W H K r ns k1
       | (none, k1) =>
         match refineVictim σ strat rot W H K sheets (order.getD 1 0) k1 with
         | (some ns, k2) => refineRounds σ strat rot W H K r ns k2
         | (none, k2) => (sheets, k2)) := by
  have hlen : (stableSort
      (fun a b => decide (sheet_waste (sheets.getD b dummySheet) ≤
                          sheet_waste (sheets.getD a dummySheet)))
      (List.range sheets.length)).length = sheets.length := by
    rw [(stableSort_perm _ _).length_eq, List.length_range]
  set order := stableSort
    (fun a b => decide (sheet_waste (sheets.getD b dummySheet) ≤
                        sheet_waste (sheets.getD a dummySheet)))
    (List.range sheets.length) with horder
  have h0 : order.getD 0 0 < sheets.length :=
    stableSort_range_lt (getD_mem (by rw [hlen]; omega))
  have h1 : order.getD 1 0 < sheets.length :=
    stableSort_range_lt (getD_mem (by rw [hlen]; omega))
  have htake : order.take 2 = [order.getD 0 0, order.getD 1 0] :=
    take_two_of_length (by rw [hlen]; omega)
  simp only [refineRounds]
  rw [if_neg (by omega), htake]
  simp only [refineVictims]
  rw [if_neg (by omega)]
  cases hv0 : refineVictim σ strat rot W H K sheets (order.getD 0 0) k with
  | mk o0 k1 =>
    cases o0 with
    | some ns => simp only
    | none =>
      simp only
      rw [if_neg (by omega)]
      cases hv1 : refineVictim σ strat rot W H K sheets (order.getD 1 0) k1 with
      | mk o1 k2 =>
        cases o1 with
        | some ns => simp only [refineVictims]
        | none => simp only [refineVictims]

/-! ### Unknown strategy tags behave as BSSF up to the stored tag

`base_score` is the only place the strategy string is inspected, and every
unknown tag falls through to the `BSSF` pair; the stored `strategy` field
still differs, so a run under an unknown tag equals the `BSSF` run with
every sheet's tag rewritten.  The lemmas below push that rewrite through
the whole pipeline. -/

/-- Rewrite a sheet's stored strategy tag. -/
def setStrat (s : String) (sh : SheetLayout) : SheetLayout :=
  { sh with strategy := s }

/-- Rewrite every sheet's stored strategy tag. -/
def mapStrat (s : String) (l : List SheetLayout) : List SheetLayout :=
  l.map (setStrat s)

/-- All sheets in a list carry the given strategy tag. -/
def TagOk (s : String) (l : List SheetLayout) : Prop :=
  ∀ sh ∈ l, sh.strategy = s

theorem base_score_unknown {s : String} (h1 : s ≠ "BSSF") (h2 : s ≠ "BAF")
    (h3 : s ≠ "BLSF") : base_score s = base_score "BSSF" := by
  funext fw fh pw ph
  simp [base_score, h1, h2, h3]

theorem exact_cands_setStrat (s : String) (sh : SheetLayout) (p : Piece) :
    exact_cands (setStrat s sh) p = exact_cands sh p := rfl

theorem scored_cands_setStrat {s : String} {sh : SheetLayout}
    (hb : base_score s = base_score sh.strategy) (p : Piece) :
    scored_cands (setStrat s sh) p = scored_cands sh p := by
  simp only [scored_cands, setStrat, hb]

theorem place_and_split_setStrat (s : String) (sh : SheetLayout) (i : Nat)
    (p : Piece) (rot : Bool) (x y pw ph : Nat) :
    (setStrat s sh).place_and_split i p rot x y pw ph =
      setStrat s (sh.place_and_split i p rot x y pw ph) := rfl

theorem try_place_setStrat {s : String} {sh : SheetLayout}
    (hb : base_score s = base_score sh.strategy) (p : Piece) :
    (setStrat s sh).try_place_piece p =
      ((sh.try_place_piece p).1, setStrat s (sh.try_place_piece p).2) := by
  unfold SheetLayout.try_place_piece
  rw [exact_cands_setStrat, scored_cands_setStrat hb]
  cases pickBest (exact_cands sh p) with
  | some c => rfl
  | none =>
    cases pickBest (scored_cands sh p) with
    | some c => rfl
    | none => rfl

/-- `try_place_piece` never touches the stored strategy tag or kerf. -/
theorem try_place_tags (sh : SheetLayout) (p : Piece) :
    (sh.try_place_piece p).2.strategy = sh.strategy ∧
    (sh.try_place_piece p).2.kerf = sh.kerf := by
  rcases try_place_cases sh p with hf | ⟨c, _, hs⟩
  · rw [hf]
    exact ⟨rfl, rfl⟩
  · rw [hs]
    exact ⟨rfl, rfl⟩

theorem placeFirstFit_setStrat {s1 s2 : String} (hb : base_score s1 = base_score s2)
    {p : Piece} :
    ∀ {sheets : List SheetLayout}, TagOk s2 sheets →
      placeFirstFit p (mapStrat s1 sheets) =
        (placeFirstFit p sheets).map (mapStrat s1)
  | [], _ => rfl
  | sh :: rest, ht => by
    have hbsh : base_score s1 = base_score sh.strategy := by
      rw [ht sh (List.mem_cons_self _ _)]
      exact hb
    show placeFirstFit p (setStrat s1 sh :: mapStrat s1 rest) = _
    simp only [placeFirstFit]
    rw [try_place_setStrat hbsh]
    by_cases hfl : (sh.try_place_piece p).1 = true
    · simp only [hfl, if_true, Option.map_some]
      rfl
    · rw [Bool.not_eq_true] at hfl
      simp only [hfl, Bool.false_eq_true, if_false]
      rw [placeFirstFit_setStrat hb (fun q hq => ht q (List.mem_cons_of_mem _ hq))]
      cases placeFirstFit p rest with
      | some rest' => rfl
      | none => rfl

theorem placeFirstFit_tag {s2 : String} {p : Piece} :
    ∀ {sheets sheets' : List SheetLayout}, TagOk s2 sheets →
      placeFirstFit p sheets = some sheets' → TagOk s2 sheets'
  | [], _, _, h => by cases h
  | sh :: rest, sheets', ht, h => by
    simp only [placeFirstFit] at h
    split at h
    · cases h
      intro q hq
      rcases List.mem_cons.mp hq with rfl | hq'
      · rw [(try_place_tags sh p).1]
        exact ht sh (List.mem_cons_self _ _)
      · exact ht q (List.mem_cons_of_mem _ hq')
    · split at h
      · next rest' hrest =>
        cases h
        intro q hq
        rcases List.mem_cons.mp hq with rfl | hq'
        · exact ht q (List.mem_cons_self _ _)
        · exact placeFirstFit_tag
            (fun r hr => ht r (List.mem_cons_of_mem _ hr)) hrest q hq'
      · cases h

theorem init_setStrat (W H K : Nat) (s1 s2 : String) (rot : Bool) :
    SheetLayout.init W H K s1 rot = setStrat s1 (SheetLayout.init W H K s2 rot) := rfl

theorem packOnceAux_setStrat {W H K : Nat} {s1 s2 : String} {rot : Bool}
    (hb : base_score s1 = base_score s2) :
    ∀ (pieces : List Piece) {acc : List SheetLayout}, TagOk s2 acc →
      packOnceAux W H K s1 rot pieces (mapStrat s1 acc) =
        (packOnceAux W H K s2 rot pieces acc).map (mapStrat s1)
  | [], _, _ => rfl
  | p :: rest, acc, ht => by
    simp only [packOnceAux]
    rw [placeFirstFit_setStrat hb ht]
    cases hpf : placeFirstFit p acc with
    | some acc' =>
      simp only [Option.map_some]
      exact packOnceAux_setStrat hb rest (placeFirstFit_tag ht hpf)
    | none =>
      simp only [Option.map_none]
      rw [init_setStrat W H K s1 s2 rot,
        try_place_setStrat (by exact hb : base_score s1 =
          base_score (SheetLayout.init W H K s2 rot).strategy)]
      by_cases hfl : ((SheetLayout.init W H K s2 rot).try_place_piece p).1 = true
      · simp only [hfl, if_true]
        have hmap : mapStrat s1 acc ++
            [setStrat s1 ((SheetLayout.init W H K s2 rot).try_place_piece p).2] =
            mapStrat s1 (acc ++ [((SheetLayout.init W H K s2 rot).try_place_piece p).2]) := by
          simp [mapStrat]
        rw [hmap]
        refine packOnceAux_setStrat hb rest ?_
        intro q hq
        rcases List.mem_append.mp hq with hq' | hq'
        · exact ht q hq'
        · rw [List.mem_singleton] at hq'
          subst hq'
          exact (try_place_tags _ p).1
      · rw [Bool.not_eq_true] at hfl
        simp only [hfl, Bool.false_eq_true, if_false]
        rfl

/-- `_pack_once` under an unknown tag is the `BSSF` run with retagged
sheets. -/
theorem pack_once_setStrat {W H K : Nat} {s1 s2 : String} {rot : Bool}
    (hb : base_score s1 = base_score s2) (pieces : List Piece) :
    _pack_once pieces W H K s1 rot =
      (_pack_once pieces W H K s2 rot).map (mapStrat s1) := by
  unfold _pack_once
  have h := @packOnceAux_setStrat W H K s1 s2 rot hb pieces []
    (by intro q hq; cases hq)
  simpa [mapStrat] using h

theorem packOnceAux_tag {W H K : Nat} {s2 : String} {rot : Bool} :
    ∀ (pieces : List Piece) {acc sheets : List SheetLayout}, TagOk s2 acc →
      packOnceAux W H K s2 rot pieces acc = .ok sheets → TagOk s2 sheets
  | [], _, _, ht, h => by cases h; exact ht
  | p :: rest, acc, sheets, ht, h => by
    simp only [packOnceAux] at h
    split at h
    · next acc' hpf => exact packOnceAux_tag rest (placeFirstFit_tag ht hpf) h
    · split at h
      · refine packOnceAux_tag rest ?_ h
        intro q hq
        rcases List.mem_append.mp hq with hq' | hq'
        · exact ht q hq'
        · rw [List.mem_singleton] at hq'
          subst hq'
          exact (try_place_tags _ p).1
      · cases h

theorem pack_once_tag {W H K : Nat} {s2 : String} {rot : Bool}
    {pieces : List Piece} {sheets : List SheetLayout}
    (h : _pack_once pieces W H K s2 rot = .ok sheets) : TagOk s2 sheets :=
  packOnceAux_tag pieces (by intro q hq; cases hq) h

theorem mapStrat_nil (s : String) : mapStrat s [] = [] := rfl

theorem mapStrat_append (s : String) (a b : List SheetLayout) :
    mapStrat s (a ++ b) = mapStrat s a ++ mapStrat s b := by
  simp [mapStrat]

theorem mapStrat_length (s : String) (l : List SheetLayout) :
    (mapStrat s l).length = l.length := by
  simp [mapStrat]

theorem mapStrat_take (s : String) :
    ∀ (l : List SheetLayout) (n : Nat), mapStrat s (l.take n) = (mapStrat s l).take n
  | _, 0 => rfl
  | [], _ + 1 => rfl
  | a :: t, n + 1 => by
    show setStrat s a :: mapStrat s (t.take n) = setStrat s a :: (mapStrat s t).take n
    rw [mapStrat_take s t n]

theorem mapStrat_drop (s : String) :
    ∀ (l : List SheetLayout) (n : Nat), mapStrat s (l.drop n) = (mapStrat s l).drop n
  | _, 0 => rfl
  | [], _ + 1 => rfl
  | _ :: t, n + 1 => mapStrat_drop s t n

theorem mapStrat_set (s : String) :
    ∀ (l : List SheetLayout) (i : Nat) (x : SheetLayout),
      mapStrat s (l.set i x) = (mapStrat s l).set i (setStrat s x)
  | [], _, _ => rfl
  | _ :: _, 0, _ => rfl
  | a :: t, i + 1, x => by
    show setStrat s a :: mapStrat s (t.set i x) =
      setStrat s a :: (mapStrat s t).set i (setStrat s x)
    rw [mapStrat_set s t i x]

theorem mapStrat_eraseIdx (s : String) :
    ∀ (l : List SheetLayout) (i : Nat),
      mapStrat s (l.eraseIdx i) = (mapStrat s l).eraseIdx i
  | [], _ => rfl
  | _ :: _, 0 => rfl
  | a :: t, i + 1 => by
    show setStrat s a :: mapStrat s (t.eraseIdx i) =
      setStrat s a :: (mapStrat s t).eraseIdx i
    rw [mapStrat_eraseIdx s t i]

theorem mapStrat_getD (s : String) (l : List SheetLayout) (i : Nat)
    (hi : i < l.length) :
    (mapStrat s l).getD i dummySheet = setStrat s (l.getD i dummySheet) := by
  simp only [mapStrat, List.getD_eq_getElem?_getD, List.getElem?_map,
    List.getElem?_eq_getElem hi]
  rfl

theorem getD_oob (l : List SheetLayout) (i : Nat) (hi : l.length ≤ i) :
    l.getD i dummySheet = dummySheet := by
  rw [List.getD_eq_getElem?_getD, List.getElem?_eq_none hi]
  rfl

theorem mapStrat_getD_oob (s : String) (l : List SheetLayout) (i : Nat)
    (hi : l.length ≤ i) : (mapStrat s l).getD i dummySheet = dummySheet := by
  refine getD_oob _ i ?_
  rw [mapStrat_length]
  exact hi

theorem score_mapStrat (s : String) (l : List SheetLayout) :
    _score_sheets (mapStrat s l) = _score_sheets l := by
  simp only [_score_sheets, mapStrat, List.length_map, List.map_map]
  rfl

theorem sheet_waste_setStrat (s : String) (sh : SheetLayout) :
    sheet_waste (setStrat s sh) = sheet_waste sh := rfl

theorem foldl_try_place_setStrat {s1 s2 : String}
    (hb : base_score s1 = base_score s2) :
    ∀ (l : List Piece) (sh : SheetLayout), sh.strategy = s2 →
      l.foldl (fun s rp => (s.try_place_piece rp).2) (setStrat s1 sh) =
        setStrat s1 (l.foldl (fun s rp => (s.try_place_piece rp).2) sh)
  | [], _, _ => rfl
  | p :: l, sh, ht => by
    simp only [List.foldl_cons]
    rw [show ((setStrat s1 sh).try_place_piece p).2 =
        setStrat s1 ((sh.try_place_piece p).2) from
      by rw [try_place_setStrat (by rw [ht]; exact hb)]]
    exact foldl_try_place_setStrat hb l _
      (by rw [(try_place_tags sh p).1]; exact ht)

theorem foldl_try_place_strat :
    ∀ (l : List Piece) (sh : SheetLayout),
      (l.foldl (fun s rp => (s.try_place_piece rp).2) sh).strategy = sh.strategy
  | [], _ => rfl
  | p :: l, sh => by
    simp only [List.foldl_cons]
    rw [foldl_try_place_strat l _, (try_place_tags sh p).1]

theorem rebuild_setStrat {s1 s2 : String} (hb : base_score s1 = base_score s2)
    {sh : SheetLayout} (ht : sh.strategy = s2) :
    _rebuild_sheet_from_placed (setStrat s1 sh) =
      setStrat s1 (_rebuild_sheet_from_placed sh) := by
  simp only [_rebuild_sheet_from_placed]
  exact foldl_try_place_setStrat hb
    (sortPiecesDesc (sh.placed.map (fun p => Piece.mk p.width p.height p.piece.name)))
    (SheetLayout.mk sh.sheet_w sh.sheet_h sh.kerf sh.strategy sh.allow_rotation
      [] [⟨0, 0, sh.sheet_w, sh.sheet_h⟩]) ht

theorem rebuild_strat (sh : SheetLayout) :
    (_rebuild_sheet_from_placed sh).strategy = sh.strategy := by
  simp only [_rebuild_sheet_from_placed]
  rw [foldl_try_place_strat]

theorem tryReceivers_setStrat {s1 s2 : String}
    (hb : base_score s1 = base_score s2) {rot : Bool} {cand : Piece} :
    ∀ (receivers : List SheetLayout),
      tryReceivers s1 rot cand (mapStrat s1 receivers) =
        (tryReceivers s2 rot cand receivers).map (mapStrat s1)
  | [] => rfl
  | rcv :: rest => by
    show tryReceivers s1 rot cand (setStrat s1 rcv :: mapStrat s1 rest) = _
    simp only [tryReceivers]
    have hx : ({ setStrat s1 rcv with strategy := s1, allow_rotation := rot } :
        SheetLayout) =
        setStrat s1 { rcv with strategy := s2, allow_rotation := rot } := rfl
    rw [hx, try_place_setStrat
      (by exact hb : base_score s1 =
        base_score ({ rcv with strategy := s2, allow_rotation := rot } :
          SheetLayout).strategy)]
    by_cases hfl : (({ rcv with strategy := s2, allow_rotation := rot } :
        SheetLayout).try_place_piece cand).1 = true
    · simp only [hfl, if_true, Option.map_some]
      rfl
    · rw [Bool.not_eq_true] at hfl
      simp only [hfl, Bool.false_eq_true, if_false]
      rw [tryReceivers_setStrat hb rest]
      cases tryReceivers s2 rot cand rest with
      | some rest' => rfl
      | none => rfl

theorem tryReceivers_tag {s2 : String} {rot : Bool} {cand : Piece} :
    ∀ {receivers out : List SheetLayout}, TagOk s2 receivers →
      tryReceivers s2 rot cand receivers = some out → TagOk s2 out
  | [], _, _, h => by cases h
  | rcv :: rest, out, ht, h => by
    simp only [tryReceivers] at h
    split at h
    · cases h
      intro q hq
      rcases List.mem_cons.mp hq with rfl | hq'
      · exact ht rcv (List.mem_cons_self _ _)
      · exact ht q (List.mem_cons_of_mem _ hq')
    · split at h
      · next rest' hrest =>
        cases h
        intro q hq
        rcases List.mem_cons.mp hq with rfl | hq'
        · exact ht q (List.mem_cons_self _ _)
        · exact tryReceivers_tag
            (fun r hr => ht r (List.mem_cons_of_mem _ hr)) hrest q hq'
      · cases h

theorem tryDonorParts_setStrat {s1 s2 : String}
    (hb : base_score s1 = base_score s2) {rot : Bool} :
    ∀ (parts : List PlacedPiece) (receivers : List SheetLayout),
      tryDonorParts s1 rot parts (mapStrat s1 receivers) =
        (tryDonorParts s2 rot parts receivers).map
          (fun pr => (pr.1, mapStrat s1 pr.2))
  | [], _ => rfl
  | part :: rest, receivers => by
    simp only [tryDonorParts]
    rw [tryReceivers_setStrat hb receivers]
    cases tryReceivers s2 rot
        (Piece.mk part.width part.height part.piece.name) receivers with
    | some r' => rfl
    | none => exact tryDonorParts_setStrat hb rest receivers

theorem tryDonorParts_tag {s2 : String} {rot : Bool} :
    ∀ {parts : List PlacedPiece} {receivers : List SheetLayout}
      {part : PlacedPiece} {out : List SheetLayout}, TagOk s2 receivers →
      tryDonorParts s2 rot parts receivers = some (part, out) → TagOk s2 out := by
  intro parts
  induction parts with
  | nil => intro receivers part out _ h; cases h
  | cons q rest ih =>
    intro receivers part out ht h
    simp only [tryDonorParts] at h
    split at h
    · next r' hr =>
      cases h
      exact tryReceivers_tag ht hr
    · exact ih ht h

theorem setStrat_erase (s : String) (X : SheetLayout) (part : PlacedPiece) :
    ({ setStrat s X with placed := (setStrat s X).placed.erase part } : SheetLayout) =
      setStrat s { X with placed := X.placed.erase part } := rfl

theorem setStrat_placed (s : String) (X : SheetLayout) :
    (setStrat s X).placed = X.placed := rfl

theorem afterMove_setStrat {s1 s2 : String}
    (hb : base_score s1 = base_score s2) {sheets : List SheetLayout} {si : Nat}
    {part : PlacedPiece} {rcv : List SheetLayout} (ht : TagOk s2 sheets) :
    afterMove (mapStrat s1 sheets) si part (mapStrat s1 rcv) =
      mapStrat s1 (afterMove sheets si part rcv) := by
  simp only [afterMove]
  have hs1 : mapStrat s1 rcv ++ (mapStrat s1 sheets).drop si =
      mapStrat s1 (rcv ++ sheets.drop si) := by
    rw [mapStrat_append, mapStrat_drop]
  by_cases hi : si < sheets.length
  · have hdm : sheets.getD si dummySheet ∈ sheets := by
      rw [List.getD_eq_getElem?_getD, List.getElem?_eq_getElem hi]
      exact List.getElem_mem hi
    simp only [mapStrat_getD s1 sheets si hi]
    simp only [setStrat_erase]
    simp only [setStrat_placed]
    by_cases hne : ({ sheets.getD si dummySheet with
        placed := (sheets.getD si dummySheet).placed.erase part } :
          SheetLayout).placed ≠ []
    · simp only [if_pos hne]
      rw [hs1, rebuild_setStrat hb
        (by exact ht (sheets.getD si dummySheet) hdm), mapStrat_set]
    · simp only [if_neg hne]
      rw [hs1, mapStrat_eraseIdx]
  · rw [Nat.not_lt] at hi
    simp only [mapStrat_getD_oob s1 sheets si hi, getD_oob sheets si hi]
    have hcond : ¬ (({ dummySheet with
        placed := dummySheet.placed.erase part } : SheetLayout).placed ≠ []) := by
      simp [dummySheet, SheetLayout.init]
    simp only [if_neg hcond]
    rw [hs1, mapStrat_eraseIdx]

theorem afterMove_tag {s2 : String} {sheets : List SheetLayout} {si : Nat}
    {part : PlacedPiece} {rcv : List SheetLayout} (ht : TagOk s2 sheets)
    (htr : TagOk s2 rcv) : TagOk s2 (afterMove sheets si part rcv) := by
  have hts1 : TagOk s2 (rcv ++ sheets.drop si) := by
    intro q hq
    rcases List.mem_append.mp hq with hq' | hq'
    · exact htr q hq'
    · exact ht q (List.mem_of_mem_drop hq')
  simp only [afterMove]
  split
  · next hne =>
    intro q hq
    rcases List.mem_or_eq_of_mem_set hq with hq' | rfl
    · exact hts1 q hq'
    · have hi : si < sheets.length := by
        by_contra hcon
        rw [Nat.not_lt] at hcon
        rw [getD_oob sheets si hcon] at hne
        simp [dummySheet, SheetLayout.init] at hne
      have hdm : sheets.getD si dummySheet ∈ sheets := by
        rw [List.getD_eq_getElem?_getD, List.getElem?_eq_getElem hi]
        exact List.getElem_mem hi
      rw [rebuild_strat]
      exact ht (sheets.getD si dummySheet) hdm
  · intro q hq
    exact hts1 q (List.mem_of_mem_eraseIdx hq)

theorem TagOk_take {s2 : String} {sheets : List SheetLayout}
    (ht : TagOk s2 sheets) (n : Nat) : TagOk s2 (sheets.take n) :=
  fun q hq => ht q (List.take_subset n sheets hq)

theorem scanDonors_setStrat {s1 s2 : String}
    (hb : base_score s1 = base_score s2) {rot : Bool} :
    ∀ (idxs : List Nat) (sheets : List SheetLayout) (best : Nat × Nat),
      TagOk s2 sheets →
      scanDonors s1 rot idxs (mapStrat s1 sheets) best =
        (mapStrat s1 (scanDonors s2 rot idxs sheets best).1,
         (scanDonors s2 rot idxs sheets best).2)
  | [], _, _, _ => rfl
  | si :: idxs, sheets, best, ht => by
    simp only [scanDonors]
    by_cases hi : si < sheets.length
    · simp only [mapStrat_getD s1 sheets si hi, setStrat_placed, ← mapStrat_take]
      rw [tryDonorParts_setStrat hb]
      cases htd : tryDonorParts s2 rot (stableSort
          (fun a b => decide (a.width * a.height ≤ b.width * b.height))
          (sheets.getD si dummySheet).placed) (sheets.take si) with
      | none => exact scanDonors_setStrat hb idxs sheets best ht
      | some pr =>
        rcases pr with ⟨part, rcv'⟩
        change (if scoreLt (_score_sheets (afterMove (mapStrat s1 sheets) si part
            (mapStrat s1 rcv'))) best = true then
          (afterMove (mapStrat s1 sheets) si part (mapStrat s1 rcv'), true)
        else scanDonors s1 rot idxs (afterMove (mapStrat s1 sheets) si part
            (mapStrat s1 rcv')) best) = _
        rw [afterMove_setStrat hb ht, score_mapStrat]
        have ht2 : TagOk s2 (afterMove sheets si part rcv') :=
          afterMove_tag ht (tryDonorParts_tag (TagOk_take ht si) htd)
        by_cases hsc : scoreLt (_score_sheets (afterMove sheets si part rcv')) best = true
        · simp only [hsc, if_true]
        · rw [Bool.not_eq_true] at hsc
          simp only [hsc, Bool.false_eq_true, if_false]
          exact scanDonors_setStrat hb idxs _ best ht2
    · rw [Nat.not_lt] at hi
      simp only [mapStrat_getD_oob s1 sheets si hi, getD_oob sheets si hi]
      exact scanDonors_setStrat hb idxs sheets best ht

theorem scanDonors_tag {s2 : String} {rot : Bool} :
    ∀ (idxs : List Nat) (sheets : List SheetLayout) (best : Nat × Nat),
      TagOk s2 sheets → TagOk s2 (scanDonors s2 rot idxs sheets best).1
  | [], _, _, ht => ht
  | si :: idxs, sheets, best, ht => by
    simp only [scanDonors]
    split
    · exact scanDonors_tag idxs sheets best ht
    · next part rcv' htd =>
      have ht2 : TagOk s2 (afterMove sheets si part rcv') :=
        afterMove_tag ht (tryDonorParts_tag (TagOk_take ht si) htd)
      split
      · exact ht2
      · exact scanDonors_tag idxs _ best ht2

theorem compactLoopF_setStrat {s1 s2 : String}
    (hb : base_score s1 = base_score s2) {rot : Bool} :
    ∀ (fuel : Nat) (sheets : List SheetLayout), TagOk s2 sheets →
      compactLoopF s1 rot fuel (mapStrat s1 sheets) =
        mapStrat s1 (compactLoopF s2 rot fuel sheets)
  | 0, _, _ => rfl
  | fuel + 1, sheets, ht => by
    simp only [compactLoopF, mapStrat_length, score_mapStrat]
    rw [scanDonors_setStrat hb _ sheets _ ht]
    by_cases hf : (scanDonors s2 rot ((List.range sheets.length).drop 1).reverse
        sheets (_score_sheets sheets)).2 = true
    · simp only [hf, if_true]
      exact compactLoopF_setStrat hb fuel _ (scanDonors_tag _ sheets _ ht)
    · rw [Bool.not_eq_true] at hf
      simp only [hf, Bool.false_eq_true, if_false]

theorem compactLoopF_tag {s2 : String} {rot : Bool} :
    ∀ (fuel : Nat) (sheets : List SheetLayout), TagOk s2 sheets →
      TagOk s2 (compactLoopF s2 rot fuel sheets)
  | 0, _, ht => ht
  | fuel + 1, sheets, ht => by
    simp only [compactLoopF]
    split
    · exact compactLoopF_tag fuel _ (scanDonors_tag _ sheets _ ht)
    · exact scanDonors_tag _ sheets _ ht

theorem totalSheetArea_mapStrat (s : String) (l : List SheetLayout) :
    totalSheetArea (mapStrat s l) = totalSheetArea l := by
  simp only [totalSheetArea, mapStrat, List.map_map]
  rfl

theorem compactFuel_mapStrat (s : String) (l : List SheetLayout) :
    compactFuel (mapStrat s l) = compactFuel l := by
  simp only [compactFuel, mapStrat_length, totalSheetArea_mapStrat, score_mapStrat]

/-- The compactor under an unknown tag is the `BSSF` compactor with
retagged sheets. -/
theorem compactor_setStrat {s1 s2 : String}
    (hb : base_score s1 = base_score s2) {rot : Bool}
    {sheets : List SheetLayout} (ht : TagOk s2 sheets) :
    _global_compactor (mapStrat s1 sheets) s1 rot =
      mapStrat s1 (_global_compactor sheets s2 rot) := by
  unfold _global_compactor compactLoop
  rw [compactFuel_mapStrat]
  exact compactLoopF_setStrat hb _ sheets ht

theorem compactor_tag {s2 : String} {rot : Bool}
    {sheets : List SheetLayout} (ht : TagOk s2 sheets) :
    TagOk s2 (_global_compactor sheets s2 rot) :=
  compactLoopF_tag _ sheets ht

theorem waste_getD_mapStrat (s : String) (l : List SheetLayout) (i : Nat) :
    sheet_waste ((mapStrat s l).getD i dummySheet) =
      sheet_waste (l.getD i dummySheet) := by
  simp only [mapStrat, List.getD_eq_getElem?_getD, List.getElem?_map]
  cases l[i]? with
  | none => rfl
  | some x => rfl

theorem enumFrom_mapStrat (s : String) :
    ∀ (n : Nat) (l : List SheetLayout),
      (mapStrat s l).enumFrom n = (l.enumFrom n).map (Prod.map id (setStrat s))
  | _, [] => rfl
  | n, a :: t => by
    show (n, setStrat s a) :: (mapStrat s t).enumFrom (n + 1) =
      (n, setStrat s a) :: (t.enumFrom (n + 1)).map (Prod.map id (setStrat s))
    rw [enumFrom_mapStrat s (n + 1) t]

theorem enum_mapStrat (s : String) (l : List SheetLayout) :
    (mapStrat s l).enum = l.enum.map (Prod.map id (setStrat s)) :=
  enumFrom_mapStrat s 0 l

theorem foldl_clone_setStrat {s1 s2 : String}
    (hb : base_score s1 = base_score s2) :
    ∀ (l : List PlacedPiece) (sh : SheetLayout), sh.strategy = s2 →
      l.foldl (fun c pp =>
          (c.try_place_piece (Piece.mk pp.width pp.height pp.piece.name)).2)
        (setStrat s1 sh) =
      setStrat s1 (l.foldl (fun c pp =>
          (c.try_place_piece (Piece.mk pp.width pp.height pp.piece.name)).2) sh)
  | [], _, _ => rfl
  | pp :: l, sh, ht => by
    simp only [List.foldl_cons]
    rw [show ((setStrat s1 sh).try_place_piece
        (Piece.mk pp.width pp.height pp.piece.name)).2 =
        setStrat s1 ((sh.try_place_piece
          (Piece.mk pp.width pp.height pp.piece.name)).2) from
      by rw [try_place_setStrat (by rw [ht]; exact hb)]]
    exact foldl_clone_setStrat hb l _
      (by rw [(try_place_tags sh _).1]; exact ht)

theorem cloneSheet_setStrat {s1 s2 : String}
    (hb : base_score s1 = base_score s2) {W H K : Nat} {rot : Bool}
    (sh : SheetLayout) :
    cloneSheet W H K s1 rot sh = setStrat s1 (cloneSheet W H K s2 rot sh) := by
  unfold cloneSheet
  rw [init_setStrat W H K s1 s2 rot]
  exact foldl_clone_setStrat hb _ _ rfl

theorem cloneSheet_retag (W H K : Nat) (s s' : String) (rot : Bool)
    (sh : SheetLayout) :
    cloneSheet W H K s rot (setStrat s' sh) = cloneSheet W H K s rot sh := rfl

theorem packPoolAux_setStrat {W H K : Nat} {s1 s2 : String} {rot : Bool}
    (hb : base_score s1 = base_score s2) :
    ∀ (pieces : List Piece) {acc : List SheetLayout}, TagOk s2 acc →
      packPoolAux W H K s1 rot pieces (mapStrat s1 acc) =
        (packPoolAux W H K s2 rot pieces acc).map (mapStrat s1)
  | [], _, _ => rfl
  | p :: rest, acc, ht => by
    simp only [packPoolAux]
    rw [placeFirstFit_setStrat hb ht]
    cases hpf : placeFirstFit p acc with
    | some acc' =>
      simp only [Option.map_some]
      exact packPoolAux_setStrat hb rest (placeFirstFit_tag ht hpf)
    | none =>
      simp only [Option.map_none]
      rw [init_setStrat W H K s1 s2 rot,
        try_place_setStrat (by exact hb : base_score s1 =
          base_score (SheetLayout.init W H K s2 rot).strategy)]
      by_cases hfl : ((SheetLayout.init W H K s2 rot).try_place_piece p).1 = true
      · simp only [hfl, if_true]
        have hmap : mapStrat s1 acc ++
            [setStrat s1 ((SheetLayout.init W H K s2 rot).try_place_piece p).2] =
            mapStrat s1 (acc ++ [((SheetLayout.init W H K s2 rot).try_place_piece p).2]) := by
          simp [mapStrat]
        rw [hmap]
        refine packPoolAux_setStrat hb rest ?_
        intro q hq
        rcases List.mem_append.mp hq with hq' | hq'
        · exact ht q hq'
        · rw [List.mem_singleton] at hq'
          subst hq'
          exact (try_place_tags _ p).1
      · rw [Bool.not_eq_true] at hfl
        simp only [hfl, Bool.false_eq_true, if_false]
        rfl

theorem packPoolAux_tag {W H K : Nat} {s2 : String} {rot : Bool} :
    ∀ (pieces : List Piece) {acc sheets : List SheetLayout}, TagOk s2 acc →
      packPoolAux W H K s2 rot pieces acc = some sheets → TagOk s2 sheets
  | [], _, _, ht, h => by cases h; exact ht
  | p :: rest, acc, sheets, ht, h => by
    simp only [packPoolAux] at h
    split at h
    · next acc' hpf => exact packPoolAux_tag rest (placeFirstFit_tag ht hpf) h
    · split at h
      · refine packPoolAux_tag rest ?_ h
        intro q hq
        rcases List.mem_append.mp hq with hq' | hq'
        · exact ht q hq'
        · rw [List.mem_singleton] at hq'
          subst hq'
          exact (try_place_tags _ p).1
      · cases h

theorem clone_filter_map {s1 s2 : String} (hb : base_score s1 = base_score s2)
    (W H K : Nat) (rot : Bool) (vi : Nat) :
    ∀ (l : List (Nat × SheetLayout)),
      ((l.map (Prod.map id (setStrat s1))).filter
          (fun jsh => decide (jsh.1 ≠ vi))).map
        (fun jsh => cloneSheet W H K s1 rot jsh.2) =
      ((l.filter (fun jsh => decide (jsh.1 ≠ vi))).map
        (fun jsh => cloneSheet W H K s2 rot jsh.2)).map (setStrat s1)
  | [] => rfl
  | (i, sh) :: t => by
    have ih := clone_filter_map hb W H K rot vi t
    show (((i, setStrat s1 sh) :: t.map (Prod.map id (setStrat s1))).filter
        (fun jsh => decide (jsh.1 ≠ vi))).map
      (fun jsh => cloneSheet W H K s1 rot jsh.2) = _
    rw [List.filter_cons, List.filter_cons]
    by_cases hne : i ≠ vi
    · rw [if_pos (by simpa using hne), if_pos (by simpa using hne)]
      simp only [List.map_cons]
      rw [ih, cloneSheet_retag, cloneSheet_setStrat hb]
    · rw [if_neg (by simpa using hne), if_neg (by simpa using hne)]
      exact ih

theorem refineVictim_setStrat {s1 s2 : String}
    (hb : base_score s1 = base_score s2) {σ : Shuffle} {rot : Bool}
    {W H K : Nat} {sheets : List SheetLayout} (vi k : Nat)
    (hvi : vi < sheets.length) (ht : TagOk s2 sheets) :
    refineVictim σ s1 rot W H K (mapStrat s1 sheets) vi k =
      ((refineVictim σ s2 rot W H K sheets vi k).1.map (mapStrat s1),
       (refineVictim σ s2 rot W H K sheets vi k).2) := by
  simp only [refineVictim]
  simp only [mapStrat_getD s1 sheets vi hvi, setStrat_placed]
  rw [enum_mapStrat, clone_filter_map hb W H K rot vi]
  have hmm : (((sheets.enum.filter (fun jsh => decide (jsh.1 ≠ vi))).map
      (fun jsh => cloneSheet W H K s2 rot jsh.2)).map (setStrat s1)).map
        (fun sh2 => sh2.placed.map
          (fun pp => Piece.mk pp.width pp.height pp.piece.name)) =
      ((sheets.enum.filter (fun jsh => decide (jsh.1 ≠ vi))).map
        (fun jsh => cloneSheet W H K s2 rot jsh.2)).map
        (fun sh2 => sh2.placed.map
          (fun pp => Piece.mk pp.width pp.height pp.piece.name)) := by
    rw [List.map_map]
    rfl
  rw [hmm]
  have hpp := @packPoolAux_setStrat W H K s1 s2 rot hb
    ((shuffle_chunks σ k (stableSort (fun a b => decide (b.w * b.h ≤ a.w * a.h))
      ((((sheets.enum.filter (fun jsh => decide (jsh.1 ≠ vi))).map
          (fun jsh => cloneSheet W H K s2 rot jsh.2)).map
        (fun sh2 => sh2.placed.map
          (fun pp => Piece.mk pp.width pp.height pp.piece.name))).flatten ++
        (sheets.getD vi dummySheet).placed.map
          (fun p => Piece.mk p.width p.height p.piece.name)))).1) []
    (by intro q hq; cases hq)
  rw [show mapStrat s1 ([] : List SheetLayout) = [] from rfl] at hpp
  rw [hpp]
  cases hq : packPoolAux W H K s2 rot
      ((shuffle_chunks σ k (stableSort (fun a b => decide (b.w * b.h ≤ a.w * a.h))
        ((((sheets.enum.filter (fun jsh => decide (jsh.1 ≠ vi))).map
            (fun jsh => cloneSheet W H K s2 rot jsh.2)).map
          (fun sh2 => sh2.placed.map
            (fun pp => Piece.mk pp.width pp.height pp.piece.name))).flatten ++
          (sheets.getD vi dummySheet).placed.map
            (fun p => Piece.mk p.width p.height p.piece.name)))).1) [] with
  | none => rfl
  | some ns =>
    change (if scoreLt (_score_sheets (mapStrat s1 ns))
        (_score_sheets (mapStrat s1 sheets)) = true then
      (some (mapStrat s1 ns), _) else (none, _)) = _
    rw [score_mapStrat, score_mapStrat]
    by_cases hsc : scoreLt (_score_sheets ns) (_score_sheets sheets) = true
    · simp only [hsc, if_true]
      rfl
    · rw [Bool.not_eq_true] at hsc
      simp only [hsc, Bool.false_eq_true, if_false]
      rfl

theorem refineVictim_tag {s2 : String} {σ : Shuffle} {rot : Bool}
    {W H K : Nat} {sheets ns : List SheetLayout} {vi k k' : Nat}
    (h : refineVictim σ s2 rot W H K sheets vi k = (some ns, k')) :
    TagOk s2 ns := by
  simp only [refineVictim] at h
  split at h
  · next hq => cases h
  · next ns' hq =>
    split at h
    · cases h
      exact packPoolAux_tag _ (by intro q hq'; cases hq') hq
    · cases h

theorem refineVictims_setStrat {s1 s2 : String}
    (hb : base_score s1 = base_score s2) {σ : Shuffle} {rot : Bool}
    {W H K : Nat} :
    ∀ (vis : List Nat) (sheets : List SheetLayout) (k : Nat), TagOk s2 sheets →
      refineVictims σ s1 rot W H K vis (mapStrat s1 sheets) k =
        (mapStrat s1 (refineVictims σ s2 rot W H K vis sheets k).1,
         (refineVictims σ s2 rot W H K vis sheets k).2)
  | [], _, _, _ => rfl
  | vi :: vis, sheets, k, ht => by
    simp only [refineVictims, mapStrat_length]
    by_cases hle : sheets.length ≤ vi
    · rw [if_pos hle, if_pos hle]
      exact refineVictims_setStrat hb vis sheets k ht
    · rw [if_neg hle, if_neg hle]
      rw [refineVictim_setStrat hb vi k (by omega) ht]
      cases hv : refineVictim σ s2 rot W H K sheets vi k with
      | mk o k' =>
        cases o with
        | some ns => rfl
        | none => exact refineVictims_setStrat hb vis sheets k' ht

theorem refineVictims_tag {s2 : String} {σ : Shuffle} {rot : Bool}
    {W H K : Nat} :
    ∀ (vis : List Nat) (sheets : List SheetLayout) (k : Nat), TagOk s2 sheets →
      TagOk s2 (refineVictims σ s2 rot W H K vis sheets k).1
  | [], _, _, ht => ht
  | vi :: vis, sheets, k, ht => by
    simp only [refineVictims]
    split
    · exact refineVictims_tag vis sheets k ht
    · split
      · next ns k' hv => exact refineVictim_tag hv
      · next k' hv => exact refineVictims_tag vis sheets k' ht

theorem refineRounds_setStrat {s1 s2 : String}
    (hb : base_score s1 = base_score s2) {σ : Shuffle} {rot : Bool}
    {W H K : Nat} :
    ∀ (r : Nat) (sheets : List SheetLayout) (k : Nat), TagOk s2 sheets →
      refineRounds σ s1 rot W H K r (mapStrat s1 sheets) k =
        (mapStrat s1 (refineRounds σ s2 rot W H K r sheets k).1,
         (refineRounds σ s2 rot W H K r sheets k).2)
  | 0, _, _, _ => rfl
  | r + 1, sheets, k, ht => by
    simp only [refineRounds, mapStrat_length]
    by_cases hle : sheets.length ≤ 1
    · rw [if_pos hle, if_pos hle]
    · rw [if_neg hle, if_neg hle]
      have hcmp : (fun a b => decide
          (sheet_waste ((mapStrat s1 sheets).getD b dummySheet) ≤
           sheet_waste ((mapStrat s1 sheets).getD a dummySheet))) =
        (fun a b => decide
          (sheet_waste (sheets.getD b dummySheet) ≤
           sheet_waste (sheets.getD a dummySheet))) := by
        funext a b
        rw [waste_getD_mapStrat, waste_getD_mapStrat]
      rw [hcmp]
      rw [refineVictims_setStrat hb _ sheets k ht]
      cases hv : refineVictims σ s2 rot W H K ((stableSort
          (fun a b => decide (sheet_waste (sheets.getD b dummySheet) ≤
            sheet_waste (sheets.getD a dummySheet)))
          (List.range sheets.length)).take 2) sheets k with
      | mk sheets' kb =>
        rcases kb with ⟨k', flag⟩
        cases flag with
        | true =>
          have ht' : TagOk s2 sheets' := by
            have := @refineVictims_tag s2 σ rot W H K ((stableSort
              (fun a b => decide (sheet_waste (sheets.getD b dummySheet) ≤
                sheet_waste (sheets.getD a dummySheet)))
              (List.range sheets.length)).take 2) sheets k ht
            rw [hv] at this
            exact this
          exact refineRounds_setStrat hb r sheets' k' ht'
        | false => rfl

theorem refineRounds_tag {s2 : String} {σ : Shuffle} {rot : Bool}
    {W H K : Nat} :
    ∀ (r : Nat) (sheets : List SheetLayout) (k : Nat), TagOk s2 sheets →
      TagOk s2 (refineRounds σ s2 rot W H K r sheets k).1
  | 0, _, _, ht => ht
  | r + 1, sheets, k, ht => by
    simp only [refineRounds]
    split
    · exact ht
    · split
      · next sheets' k' hv =>
        refine refineRounds_tag r sheets' k' ?_
        have := @refineVictims_tag s2 σ rot W H K (List.take 2 (stableSort
          (fun a b => decide (sheet_waste (sheets.getD b dummySheet) ≤
            sheet_waste (sheets.getD a dummySheet)))
          (List.range sheets.length))) sheets k ht
        rw [hv] at this
        exact this
      · next sheets' k' hv =>
        have := @refineVictims_tag s2 σ rot W H K (List.take 2 (stableSort
          (fun a b => decide (sheet_waste (sheets.getD b dummySheet) ≤
            sheet_waste (sheets.getD a dummySheet)))
          (List.range sheets.length))) sheets k ht
        rw [hv] at this
        exact this

theorem driverLoop_setStrat {s1 s2 : String}
    (hb : base_score s1 = base_score s2) (σ : Shuffle) (W H K : Nat)
    (rot : Bool) (base : List Piece) :
    ∀ (n k : Nat) (best : Option (List SheetLayout × (Nat × Nat))),
      driverLoop σ W H K s1 rot base n k
          (best.map (fun b => (mapStrat s1 b.1, b.2))) =
        (driverLoop σ W H K s2 rot base n k best).map (Option.map (mapStrat s1))
  | 0, k, best => by cases best <;> rfl
  | n + 1, k, best => by
    simp only [driverLoop]
    rw [pack_once_setStrat hb]
    cases hp : _pack_once (shuffle_chunks σ k (sortPiecesDesc base)).1 W H K
        s2 rot with
    | error e => rfl
    | ok sheets =>
      have ht := pack_once_tag hp
      dsimp only [Except.map]
      rw [compactor_setStrat hb ht]
      simp only [_global_refine_heavy]
      rw [refineRounds_setStrat hb 3 (_global_compactor sheets s2 rot)
        (shuffle_chunks σ k (sortPiecesDesc base)).2 (compactor_tag ht)]
      dsimp only
      rw [score_mapStrat]
      cases best with
      | none =>
        exact driverLoop_setStrat hb σ W H K rot base n _
          (some ((refineRounds σ s2 rot W H K 3 (_global_compactor sheets s2 rot)
              (shuffle_chunks σ k (sortPiecesDesc base)).2).1,
            _score_sheets (refineRounds σ s2 rot W H K 3
              (_global_compactor sheets s2 rot)
              (shuffle_chunks σ k (sortPiecesDesc base)).2).1))
      | some b =>
        dsimp only [Option.map]
        by_cases hsc : scoreLt (_score_sheets (refineRounds σ s2 rot W H K 3
            (_global_compactor sheets s2 rot)
            (shuffle_chunks σ k (sortPiecesDesc base)).2).1) b.2 = true
        · simp only [hsc, if_true]
          exact driverLoop_setStrat hb σ W H K rot base n _
            (some ((refineRounds σ s2 rot W H K 3 (_global_compactor sheets s2 rot)
                (shuffle_chunks σ k (sortPiecesDesc base)).2).1,
              _score_sheets (refineRounds σ s2 rot W H K 3
                (_global_compactor sheets s2 rot)
                (shuffle_chunks σ k (sortPiecesDesc base)).2).1))
        · rw [Bool.not_eq_true] at hsc
          simp only [hsc, Bool.false_eq_true, if_false]
          exact driverLoop_setStrat hb σ W H K rot base n _ (some b)

/-- The C9 rewrite at driver level: a run under an unknown strategy tag is
the `BSSF` run with every returned sheet's stored tag replaced. -/
theorem optimize_setStrat {s1 : String} (h1 : s1 ≠ "BSSF") (h2 : s1 ≠ "BAF")
    (h3 : s1 ≠ "BLSF") (σ : Shuffle) (k W H K : Nat)
    (pl : List (Nat × Nat × Nat)) (rot : Bool) (att : Nat) :
    optimize_cut_multi_start σ k W H K pl s1 rot att =
      Except.map (mapStrat s1)
        (optimize_cut_multi_start σ k W H K pl "BSSF" rot att) := by
  have hb := base_score_unknown h1 h2 h3
  simp only [optimize_cut_multi_start]
  have hd : driverLoop σ W H K s1 rot (_flatten_piece_list pl) att k none =
      Except.map (Option.map (mapStrat s1))
        (driverLoop σ W H K "BSSF" rot (_flatten_piece_list pl) att k none) :=
    driverLoop_setStrat hb σ W H K rot (_flatten_piece_list pl) att k none
  rw [hd]
  cases driverLoop σ W H K "BSSF" rot (_flatten_piece_list pl) att k none with
  | error e => rfl
  | ok o =>
    cases o with
    | none => rfl
    | some sheets => rfl

/-! ### Concrete runs

The merge definitions were kept opaque for the invariant proofs above;
the concrete evaluations below need them reducible again. -/

set_option allowUnsafeReducibility true in
attribute [semireducible] mergePassF mergePass mergeLoopF mergeLoop merge_free_rects

deriving instance DecidableEq for Except

/-- The random source that leaves every list unchanged. -/
def idShuffle : Shuffle := fun _ l => l

theorem idShuffle_isShuffle : IsShuffle idShuffle := fun _ l => List.Perm.refl l

/-- The random source that rotates every list by one position. -/
def rotShuffle : Shuffle := fun _ l => l.rotate 1

theorem rotShuffle_isShuffle : IsShuffle rotShuffle := fun _ l => l.rotate_perm 1

/-! ### All permutations of a list, kernel-computably -/

def permsN : List α → List (List α)
  | [] => [[]]
  | a :: t => (permsN t).flatMap
      (fun p => (List.range (p.length + 1)).map (fun i => p.insertIdx i a))

theorem insertIdx_append_cons (a : α) :
    ∀ (s u : List α), List.insertIdx s.length a (s ++ u) = s ++ a :: u
  | [], _ => rfl
  | x :: s, u => by
    simp only [List.length_cons, List.cons_append, List.insertIdx_succ_cons,
      insertIdx_append_cons a s u]

/-- Every permutation of `l` occurs in `permsN l`. -/
theorem permsN_complete : ∀ {l l' : List α}, l'.Perm l → l' ∈ permsN l := by
  intro l
  induction l with
  | nil => intro l' h; rw [List.perm_nil.mp h]; exact List.mem_singleton.mpr rfl
  | cons a t ih =>
    intro l' h
    have ha : a ∈ l' := h.mem_iff.mpr (List.mem_cons_self a t)
    obtain ⟨s, u, rfl⟩ := List.append_of_mem ha
    have hsu : (s ++ u).Perm t := (List.perm_middle.symm.trans h).cons_inv
    have hp := ih hsu
    simp only [permsN, List.mem_flatMap]
    refine ⟨s ++ u, hp, ?_⟩
    rw [List.mem_map]
    refine ⟨s.length, ?_, insertIdx_append_cons a s u⟩
    rw [List.mem_range, List.length_append]
    omega

/-! ### The fixed scenario of claim C8 -/

/-- The success condition of claim C8 on a driver result: one sheet, the
four parts at `(0,0), (51,0), (0,51), (51,51)`, each `49 × 49` effective,
scrap `396`. -/
def c8_ok (r : Except PackErr (List SheetLayout)) : Bool :=
  match r with
  | .ok S =>
    decide (S.map (fun sh => sh.placed.map (fun pp => (pp.x, pp.y))) =
      [[(0, 0), (51, 0), (0, 51), (51, 51)]]) &&
    decide (S.map (fun sh => sh.placed.map (fun pp => (pp.width, pp.height))) =
      [[(49, 49), (49, 49), (49, 49), (49, 49)]]) &&
    decide (_score_sheets S = (1, 396))
  | .error _ => false

def c8base : List Piece := _flatten_piece_list [(49, 49, 4)]

set_option maxRecDepth 20000 in
theorem c8_perm_all : ∀ l ∈ permsN c8base,
    c8_ok (_pack_once l 100 100 2 "BSSF" false) = true := by decide

theorem c8_attempt {l : List Piece} (hl : l.Perm c8base) :
    ∃ sh : SheetLayout, _pack_once l 100 100 2 "BSSF" false = .ok [sh] ∧
      [sh].map (fun s => s.placed.map (fun pp => (pp.x, pp.y))) =
        [[(0, 0), (51, 0), (0, 51), (51, 51)]] ∧
      [sh].map (fun s => s.placed.map (fun pp => (pp.width, pp.height))) =
        [[(49, 49), (49, 49), (49, 49), (49, 49)]] ∧
      _score_sheets [sh] = (1, 396) := by
  have h := c8_perm_all l (permsN_complete hl)
  unfold c8_ok at h
  split at h
  · next S hS =>
    simp only [Bool.and_eq_true, decide_eq_true_eq] at h
    obtain ⟨⟨hA, hB⟩, hC⟩ := h
    have hlen : S.length = 1 := by
      have := congrArg List.length hA
      simpa using this
    obtain ⟨sh, rfl⟩ := List.length_eq_one.mp hlen
    exact ⟨sh, hS, hA, hB, hC⟩
  · cases h

theorem compactor_singleton (sh : SheetLayout) (s : String) (b : Bool) :
    _global_compactor [sh] s b = [sh] := rfl

theorem refine_singleton (σ : Shuffle) (k : Nat) (sh : SheetLayout)
    (s : String) (b : Bool) (W H K : Nat) :
    _global_refine_heavy σ k [sh] s b W H K 3 = ([sh], k) := rfl

/-- Unfolding one driver attempt whose pack succeeded, starting from no
best result. -/
theorem driverLoop_step_none {σ : Shuffle} {W H K : Nat} {strat : String}
    {rot : Bool} {base : List Piece} {n k : Nat} {S : List SheetLayout}
    (hS : _pack_once (shuffle_chunks σ k (sortPiecesDesc base)).1 W H K strat rot
      = .ok S) :
    driverLoop σ W H K strat rot base (n + 1) k none =
      driverLoop σ W H K strat rot base n
        (_global_refine_heavy σ (shuffle_chunks σ k (sortPiecesDesc base)).2
          (_global_compactor S strat rot) strat rot W H K 3).2
        (some ((_global_refine_heavy σ (shuffle_chunks σ k (sortPiecesDesc base)).2
            (_global_compactor S strat rot) strat rot W H K 3).1,
          _score_sheets (_global_refine_heavy σ
            (shuffle_chunks σ k (sortPiecesDesc base)).2
            (_global_compactor S strat rot) strat rot W H K 3).1)) := by
  simp only [driverLoop]
  rw [hS]

/-- Unfolding one driver attempt whose pack succeeded, with a best result
in hand. -/
theorem driverLoop_step_some {σ : Shuffle} {W H K : Nat} {strat : String}
    {rot : Bool} {base : List Piece} {n k : Nat} {S : List SheetLayout}
    (hS : _pack_once (shuffle_chunks σ k (sortPiecesDesc base)).1 W H K strat rot
      = .ok S) (b : List SheetLayout × (Nat × Nat)) :
    driverLoop σ W H K strat rot base (n + 1) k (some b) =
      driverLoop σ W H K strat rot base n
        (_global_refine_heavy σ (shuffle_chunks σ k (sortPiecesDesc base)).2
          (_global_compactor S strat rot) strat rot W H K 3).2
        (if scoreLt (_score_sheets (_global_refine_heavy σ
            (shuffle_chunks σ k (sortPiecesDesc base)).2
            (_global_compactor S strat rot) strat rot W H K 3).1) b.2 = true then
          some ((_global_refine_heavy σ (shuffle_chunks σ k (sortPiecesDesc base)).2
              (_global_compactor S strat rot) strat rot W H K 3).1,
            _score_sheets (_global_refine_heavy σ
              (shuffle_chunks σ k (sortPiecesDesc base)).2
              (_global_compactor S strat rot) strat rot W H K 3).1)
        else some b) := by
  simp only [driverLoop]
  rw [hS]

/-- Once the best result scores `(1, 396)`, every further attempt of the C8
scenario packs one `396`-scrap sheet again and the driver keeps the best. -/
theorem c8_loop (σ : Shuffle) (hσ : IsShuffle σ) :
    ∀ (n k : Nat) (b : List SheetLayout × (Nat × Nat)), b.2 = (1, 396) →
      driverLoop σ 100 100 2 "BSSF" false c8base n k (some b) = .ok (some b.1)
  | 0, _, _, _ => rfl
  | n + 1, k, b, hb => by
    have hperm : ((shuffle_chunks σ k (sortPiecesDesc c8base)).1).Perm c8base :=
      (shuffle_chunks_perm hσ _ _).trans (stableSort_perm _ _)
    obtain ⟨sh, hS, hposm, hdimsm, hsc⟩ := c8_attempt hperm
    rw [driverLoop_step_some hS b, compactor_singleton, refine_singleton]
    dsimp only
    rw [hsc, hb, if_neg (by decide)]
    exact c8_loop σ hσ n _ b hb

/-! ### Conservation and kerf checkers for the concrete counterexamples -/

/-- A dimension pair modulo rotation equivalence when rotation is allowed. -/
def dimsCanon (rot : Bool) (d : Nat × Nat) : Nat × Nat :=
  if rot then (min d.1 d.2, max d.1 d.2) else d

/-- Multiset equality of two pair lists: equal length and equal counts. -/
def msetEqB (l1 l2 : List (Nat × Nat)) : Bool :=
  l1.length == l2.length && l1.all (fun a => l1.count a == l2.count a)

/-- Claim C2's conservation property on one driver run: on success, the
multiset of effective dimensions over all returned sheets, canonicalised
when rotation is allowed, equals the one induced by flattening the piece
list. -/
def conservationHolds (σ : Shuffle) (k W H K : Nat)
    (pl : List (Nat × Nat × Nat)) (strat : String) (rot : Bool)
    (att : Nat) : Bool :=
  match optimize_cut_multi_start σ k W H K pl strat rot att with
  | .error _ => true
  | .ok shs =>
    msetEqB ((shs.map (fun sh => sh.placed.map
        (fun p => dimsCanon rot (p.width, p.height)))).flatten)
      ((_flatten_piece_list pl).map (fun p => dimsCanon rot (p.w, p.h)))

/-- Claim C4's kerf-gap condition on one pair of placed parts: whenever the
projections on one axis overlap, the parts are separated by at least the
kerf on the other axis. -/
def kerfSepB (K : Nat) (p q : PlacedPiece) : Bool :=
  decide (((q.y < p.y + p.height ∧ p.y < q.y + q.height) →
      (p.x + p.width + K ≤ q.x ∨ q.x + q.width + K ≤ p.x)) ∧
    ((q.x < p.x + p.width ∧ p.x < q.x + q.width) →
      (p.y + p.height + K ≤ q.y ∨ q.y + q.height + K ≤ p.y)))

def pairwiseB (f : α → α → Bool) : List α → Bool
  | [] => true
  | x :: xs => xs.all (f x) && pairwiseB f xs

/-- Every pair of placed parts on every returned sheet keeps the kerf gap. -/
def kerfGapsOk (r : Except PackErr (List SheetLayout)) : Bool :=
  match r with
  | .error _ => true
  | .ok shs => shs.all (fun sh => pairwiseB (kerfSepB sh.kerf) sh.placed)

/-- A reachable pre-refiner state (pack + compact of the first attempt of
the run refuting C2, two sheets) and the random-call counter it leaves. -/
def c3pre : List SheetLayout × Nat :=
  let base := sortPiecesDesc (_flatten_piece_list [(8, 2, 3), (5, 3, 4)])
  let pk := shuffle_chunks rotShuffle 0 base
  match _pack_once pk.1 10 10 0 "BSSF" true with
  | .ok s => (_global_compactor s "BSSF" true, pk.2)
  | .error _ => ([], pk.2)

/-- The sheet produced by packing one `2 × 2` part on an empty `10 × 10`
sheet; used to instantiate witnesses on a concrete run. -/
def witSheet : SheetLayout :=
  ⟨10, 10, 0, "BSSF", true, [⟨⟨2, 2, 1⟩, 0, 0, false⟩],
    [⟨2, 0, 8, 10⟩, ⟨0, 2, 10, 8⟩]⟩

/-! ### The claims -/

/-- C1 (corrected): the claim says the driver treats a failed attempt as
failed "without propagating an exception" and returns an empty list when
every attempt fails.  The code has no handler around `_pack_once`, so the
`ValueError` raised for an oversized part escapes
`optimize_cut_multi_start`: with a positive attempt count and an oversized
part in the flattened list, the driver returns the error (amended
behaviour), never `ok []`. -/
theorem claim_C1 {σ : Shuffle} (hσ : IsShuffle σ) {k W H K : Nat}
    {pl : List (Nat × Nat × Nat)} {strat : String} {rot : Bool} {att : Nat}
    (hatt : 0 < att) (hpl : ∀ t ∈ pl, 0 < t.1 ∧ 0 < t.2.1)
    (hover : ∃ p ∈ _flatten_piece_list pl, ¬ fitsEmpty W H rot p) :
    ∃ e, optimize_cut_multi_start σ k W H K pl strat rot att = .error e :=
  optimize_oversized hσ hatt hpl hover

/-- C1 counterexample to the claimed behaviour: on the spec's own scenario
(`W=H=50, K=0, pieces=[(60,10,1)]`) the driver returns the `ValueError`,
not the empty list. -/
theorem claim_C1_cex :
    optimize_cut_multi_start idShuffle 0 50 50 0 [(60, 10, 1)] "BSSF" true 1
      = .error (.oversized ⟨60, 10, 1⟩ 50 50) ∧
    optimize_cut_multi_start idShuffle 0 50 50 0 [(60, 10, 1)] "BSSF" true 1
      ≠ .ok [] :=
  ⟨by decide, by decide⟩

theorem claim_C1_witness :
    IsShuffle idShuffle ∧ 0 < 1 ∧
    (∀ t ∈ [(60, 10, 1)], 0 < t.1 ∧ 0 < t.2.1) ∧
    (∃ p ∈ _flatten_piece_list [(60, 10, 1)], ¬ fitsEmpty 50 50 true p) ∧
    ∃ e, optimize_cut_multi_start idShuffle 0 50 50 0 [(60, 10, 1)] "BSSF"
      true 1 = .error e :=
  ⟨idShuffle_isShuffle, by decide, by decide, by decide,
    claim_C1 idShuffle_isShuffle (by decide) (by decide) (by decide)⟩

/-- C2 (corrected): the claimed conservation fails for the driver as a
whole — the refiner's clone re-pack drops parts silently — but it does
hold for `_pack_once` itself (amended behaviour): the pieces attached to
the returned placements are a permutation of the input pieces. -/
theorem claim_C2 {pieces : List Piece} {W H K : Nat} {strat : String}
    {rot : Bool} {sheets : List SheetLayout}
    (h : _pack_once pieces W H K strat rot = .ok sheets) :
    (allPieces sheets).Perm pieces :=
  pack_once_conserves h

set_option maxRecDepth 20000 in
/-- C2 counterexample: a run returning a non-empty result in which two
`5 × 3` parts of the input are missing from the output. -/
theorem claim_C2_cex :
    IsShuffle rotShuffle ∧
    conservationHolds rotShuffle 0 10 10 0 [(8, 2, 3), (5, 3, 4)] "BSSF"
      true 1 = false :=
  ⟨rotShuffle_isShuffle, by decide⟩

theorem claim_C2_witness :
    _pack_once [Piece.mk 2 2 1] 10 10 0 "BSSF" true = .ok [witSheet] ∧
    (allPieces [witSheet]).Perm [Piece.mk 2 2 1] :=
  ⟨by decide, @claim_C2 [Piece.mk 2 2 1] 10 10 0 "BSSF" true [witSheet] (by decide)⟩

/-- C3 (corrected): the refiner does not dissolve the two worst sheets
together; with more than one sheet a round tries them one at a time —
first `order[0]`, then (only if rejected) `order[1]`, each victim with its
own pool — accepting the first strict improvement and ending the rounds
when neither is accepted. -/
theorem claim_C3 (σ : Shuffle) (strat : String) (rot : Bool)
    (W H K r : Nat) (sheets : List SheetLayout) (k : Nat)
    (h : 1 < sheets.length) :
    refineRounds σ strat rot W H K (r + 1) sheets k =
      (let order := stableSort
        (fun a b => decide (sheet_waste (sheets.getD b dummySheet) ≤
                            sheet_waste (sheets.getD a dummySheet)))
        (List.range sheets.length)
       match refineVictim σ strat rot W H K sheets (order.getD 0 0) k with
       | (some ns, k1) => refineRounds σ strat rot W H K r ns k1
       | (none, k1) =>
         match refineVictim σ strat rot W H K sheets (order.getD 1 0) k1 with
         | (some ns, k2) => refineRounds σ strat rot W H K r ns k2
         | (none, k2) => (sheets, k2)) :=
  refineRounds_one_at_a_time σ strat rot W H K r sheets k h

set_option maxRecDepth 20000 in
/-- C3 counterexample: on a reachable two-sheet state the code's refiner
and the claim's joint-dissolve refiner return different results. -/
theorem claim_C3_cex :
    1 < c3pre.1.length ∧ IsShuffle rotShuffle ∧
    _global_refine_heavy rotShuffle c3pre.2 c3pre.1 "BSSF" true 10 10 0 3 ≠
      refineRoundsJoint rotShuffle "BSSF" true 10 10 0 3 c3pre.1 c3pre.2 :=
  ⟨by decide, rotShuffle_isShuffle, by decide⟩

theorem claim_C3_witness :
    1 < [dummySheet, dummySheet].length ∧
    refineRounds idShuffle "BSSF" true 10 10 0 (0 + 1) [dummySheet, dummySheet] 0 =
      (let order := stableSort
        (fun a b => decide
          (sheet_waste ([dummySheet, dummySheet].getD b dummySheet) ≤
           sheet_waste ([dummySheet, dummySheet].getD a dummySheet)))
        (List.range [dummySheet, dummySheet].length)
       match refineVictim idShuffle "BSSF" true 10 10 0 [dummySheet, dummySheet]
           (order.getD 0 0) 0 with
       | (some ns, k1) => refineRounds idShuffle "BSSF" true 10 10 0 0 ns k1
       | (none, k1) =>
         match refineVictim idShuffle "BSSF" true 10 10 0 [dummySheet, dummySheet]
             (order.getD 1 0) k1 with
         | (some ns, k2) => refineRounds idShuffle "BSSF" true 10 10 0 0 ns k2
         | (none, k2) => ([dummySheet, dummySheet], k2)) :=
  ⟨by decide,
    claim_C3 idShuffle "BSSF" true 10 10 0 0 [dummySheet, dummySheet] 0 (by decide)⟩

/-- C4 (corrected): the no-overlap half of the claim holds for every sheet
the driver returns (amended behaviour), but the kerf-gap half is false:
the prune step clears free rects against the un-kerfed used rectangle, so
a later part can sit flush against an earlier one even with `kerf > 0`. -/
theorem claim_C4 {σ : Shuffle} (hσ : IsShuffle σ) {k W H K : Nat}
    {pl : List (Nat × Nat × Nat)} {strat : String} {rot : Bool} {att : Nat}
    {sheets : List SheetLayout} (hpl : ∀ t ∈ pl, 0 < t.1 ∧ 0 < t.2.1)
    (h : optimize_cut_multi_start σ k W H K pl strat rot att = .ok sheets) :
    ∀ sh ∈ sheets, List.Pairwise
      (fun p q => SheetLayout.intersects (effRect p) (effRect q) = false)
      sh.placed :=
  fun sh hs => ((optimize_inv hσ hpl h) sh hs).2.2.1

set_option maxRecDepth 20000 in
/-- C4 counterexample: with `kerf = 2` the driver returns a layout where
two parts abut with zero gap. -/
theorem claim_C4_cex :
    IsShuffle idShuffle ∧
    kerfGapsOk (optimize_cut_multi_start idShuffle 0 100 100 2
      [(60, 60, 1), (30, 100, 1), (62, 38, 1)] "BSSF" false 1) = false :=
  ⟨idShuffle_isShuffle, by decide⟩

theorem claim_C4_witness :
    (∀ t ∈ [(2, 2, 1)], 0 < t.1 ∧ 0 < t.2.1) ∧
    optimize_cut_multi_start idShuffle 0 10 10 0 [(2, 2, 1)] "BSSF" true 1
      = .ok [witSheet] ∧
    ∀ sh ∈ [witSheet], List.Pairwise
      (fun p q => SheetLayout.intersects (effRect p) (effRect q) = false)
      sh.placed :=
  ⟨by decide, by decide,
    @claim_C4 idShuffle idShuffle_isShuffle 0 10 10 0 [(2, 2, 1)] "BSSF" true 1
      [witSheet] (by decide) (by decide)⟩

/-- C5 (confirmed): `try_place_piece` is a total function of the embedding
(the source body raises nothing); on success the placed list gains exactly
one entry for the offered piece, and on failure the sheet — placed list
and free-rect list included — is returned unchanged. -/
theorem claim_C5 (sh : SheetLayout) (p : Piece) :
    if (sh.try_place_piece p).1 = true then
      ∃ x y rot, (sh.try_place_piece p).2.placed = sh.placed ++ [⟨p, x, y, rot⟩]
    else (sh.try_place_piece p).2 = sh := by
  by_cases h : (sh.try_place_piece p).1 = true
  · rw [if_pos h]
    exact (try_place_contract sh p).2 h
  · rw [if_neg h]
    exact (try_place_contract sh p).1 (by rwa [Bool.not_eq_true] at h)

/-- C6 (confirmed): whenever some (free rect, orientation) candidate
satisfies the exact-fit condition, `try_place_piece` places the piece via
the exact-fit candidate with lexicographically least tuple and returns
true; the scored pass is skipped. -/
theorem claim_C6 {sh : SheetLayout} {p : Piece}
    (hex : ∃ (i : Nat) (fr : FreeRect) (rot : Bool),
      sh.free_rects[i]? = some fr ∧ rot ∈ orientations sh.allow_rotation ∧
      (orientedDims p rot).1 ≤ fr.w ∧ (orientedDims p rot).2 ≤ fr.h ∧
      ((orientedDims p rot).1 = fr.w ∨ (orientedDims p rot).2 = fr.h)) :
    ∃ c ∈ exact_cands sh p,
      (∀ d ∈ exact_cands sh p, keyLt d.key c.key = false) ∧
      sh.try_place_piece p =
        (true, sh.place_and_split c.i p c.rot c.x c.y c.pw c.ph) :=
  try_place_exact_fit hex

theorem claim_C6_witness :
    ∃ c ∈ exact_cands (SheetLayout.init 10 10 0 "BSSF" false) (Piece.mk 10 4 1),
      (∀ d ∈ exact_cands (SheetLayout.init 10 10 0 "BSSF" false)
        (Piece.mk 10 4 1), keyLt d.key c.key = false) ∧
      (SheetLayout.init 10 10 0 "BSSF" false).try_place_piece (Piece.mk 10 4 1) =
        (true, (SheetLayout.init 10 10 0 "BSSF" false).place_and_split c.i
          (Piece.mk 10 4 1) c.rot c.x c.y c.pw c.ph) :=
  claim_C6 ⟨0, ⟨0, 0, 10, 10⟩, false, rfl, by decide, by decide, by decide,
    by decide⟩

/-- C7 (confirmed): the driver is deterministic in its inputs and the
random source's state — two runs with extensionally equal random sources,
the same call counter and the same inputs return the same sheet list. -/
theorem claim_C7 (σ1 σ2 : Shuffle) (h : ∀ n l, σ1 n l = σ2 n l)
    (k W H K : Nat) (pl : List (Nat × Nat × Nat)) (strat : String)
    (rot : Bool) (att : Nat) :
    optimize_cut_multi_start σ1 k W H K pl strat rot att =
      optimize_cut_multi_start σ2 k W H K pl strat rot att := by
  have heq : σ1 = σ2 := funext fun n => funext fun l => h n l
  rw [heq]

theorem claim_C7_witness :
    (∀ (n : Nat) (l : List Piece), idShuffle n l =
      (fun (_ : Nat) (l : List Piece) => l.reverse.reverse) n l) ∧
    optimize_cut_multi_start idShuffle 0 5 5 0 [(2, 2, 1)] "BSSF" true 1 =
      optimize_cut_multi_start (fun _ l => l.reverse.reverse) 0 5 5 0
        [(2, 2, 1)] "BSSF" true 1 :=
  ⟨fun n l => by simp [idShuffle],
    claim_C7 idShuffle (fun _ l => l.reverse.reverse)
      (fun n l => by simp [idShuffle]) 0 5 5 0 [(2, 2, 1)] "BSSF" true 1⟩

/-- C8 (confirmed): on `W = H = 100, K = 2, pieces = [(49,49,4)],
rotation off, 5 attempts`, every random source yields one sheet with the
four parts at `(0,0), (51,0), (0,51), (51,51)`, each `49 × 49`, and scrap
`396`. -/
theorem claim_C8 (σ : Shuffle) (hσ : IsShuffle σ) (k : Nat) :
    c8_ok (optimize_cut_multi_start σ k 100 100 2 [(49, 49, 4)] "BSSF"
      false 5) = true := by
  have hperm : ((shuffle_chunks σ k (sortPiecesDesc c8base)).1).Perm c8base :=
    (shuffle_chunks_perm hσ _ _).trans (stableSort_perm _ _)
  obtain ⟨sh, hS, hposm, hdimsm, hsc⟩ := c8_attempt hperm
  have hdrv : driverLoop σ 100 100 2 "BSSF" false c8base 5 k none =
      .ok (some [sh]) := by
    show driverLoop σ 100 100 2 "BSSF" false c8base (4 + 1) k none = _
    rw [driverLoop_step_none hS, compactor_singleton, refine_singleton]
    dsimp only
    rw [hsc]
    exact c8_loop σ hσ 4 _ ([sh], (1, 396)) rfl
  simp only [optimize_cut_multi_start]
  have hfold : _flatten_piece_list [(49, 49, 4)] = c8base := rfl
  rw [hfold, hdrv]
  show c8_ok (Except.ok [sh]) = true
  simp [c8_ok, hposm, hdimsm, hsc]

theorem claim_C8_witness :
    IsShuffle idShuffle ∧
    c8_ok (optimize_cut_multi_start idShuffle 0 100 100 2 [(49, 49, 4)]
      "BSSF" false 5) = true :=
  ⟨idShuffle_isShuffle, claim_C8 idShuffle idShuffle_isShuffle 0⟩

/-- C9 (corrected): running with an unknown strategy tag does not produce
"exactly the same output" as `"BSSF"` — the tag is stored verbatim in
every sheet — but it is the `BSSF` run up to rewriting that stored tag
(amended behaviour), because `base_score` sends unknown tags to the
`BSSF` key. -/
theorem claim_C9 {s : String} (h1 : s ≠ "BSSF") (h2 : s ≠ "BAF")
    (h3 : s ≠ "BLSF") (σ : Shuffle) (k W H K : Nat)
    (pl : List (Nat × Nat × Nat)) (rot : Bool) (att : Nat) :
    optimize_cut_multi_start σ k W H K pl s rot att =
      Except.map (mapStrat s)
        (optimize_cut_multi_start σ k W H K pl "BSSF" rot att) :=
  optimize_setStrat h1 h2 h3 σ k W H K pl rot att

set_option maxRecDepth 20000 in
/-- C9 counterexample to verbatim output equality: the two runs differ in
the stored strategy field. -/
theorem claim_C9_cex :
    optimize_cut_multi_start idShuffle 0 10 10 0 [(5, 5, 1)] "XXX" true 1 ≠
      optimize_cut_multi_start idShuffle 0 10 10 0 [(5, 5, 1)] "BSSF" true 1 := by
  decide

theorem claim_C9_witness :
    ("XXX" ≠ "BSSF") ∧ ("XXX" ≠ "BAF") ∧ ("XXX" ≠ "BLSF") ∧
    optimize_cut_multi_start idShuffle 0 10 10 0 [(5, 5, 1)] "XXX" true 1 =
      Except.map (mapStrat "XXX")
        (optimize_cut_multi_start idShuffle 0 10 10 0 [(5, 5, 1)] "BSSF"
          true 1) :=
  ⟨by decide, by decide, by decide,
    claim_C9 (by decide) (by decide) (by decide) idShuffle 0 10 10 0
      [(5, 5, 1)] true 1⟩

/-- C10 (confirmed): a free rect occurring at two different indices is
dropped by the containment filter of `_merge_free_rects` — each copy
non-strictly contains the other at another index — so duplicated free
area can vanish from the list. -/
theorem claim_C10 {l : List FreeRect} {r : FreeRect} (h : 2 ≤ l.count r) :
    r ∉ containment_filter l :=
  containment_filter_dup h

theorem claim_C10_witness :
    2 ≤ [(⟨0, 0, 2, 2⟩ : FreeRect), ⟨0, 0, 2, 2⟩].count ⟨0, 0, 2, 2⟩ ∧
    (⟨0, 0, 2, 2⟩ : FreeRect) ∉
      containment_filter [⟨0, 0, 2, 2⟩, ⟨0, 0, 2, 2⟩] :=
  ⟨by decide, claim_C10 (by decide)⟩

end Cut
